import Mathlib

/-!
Verification development for the background vault analyzer
(`background_vault_analyzer.py`).  The Python source is shallowly embedded:
pure computations become Lean functions, the mutable service state
(hourly-apply counter, watch baseline, task queue, SQLite tables) becomes
explicit state passed through and returned by the embedded operations.
Python floats are modelled as rationals (`ℚ`), JSON values by the `Json`
inductive below.
-/

namespace VaultAnalyzer

/-- JSON values as produced by `json.loads`.  Python numbers (int and float)
are modelled as rationals; objects keep their key/value pairs in insertion
order with unique keys (`json.loads` keeps the last occurrence of a
duplicate key, which the embedded parser reproduces). -/
inductive Json where
  | null : Json
  | bool (b : Bool) : Json
  | num (q : ℚ) : Json
  | str (s : String) : Json
  | arr (elems : List Json) : Json
  | obj (pairs : List (String × Json)) : Json

/-- Python truthiness (`if result_data:`) for a JSON-decoded value:
`None`, `False`, `0`, `""`, `[]`, `{}` are falsy. -/
def Json.truthy : Json → Bool
  | .null => false
  | .bool b => b
  | .num q => q != 0
  | .str s => s != ""
  | .arr l => !l.isEmpty
  | .obj l => !l.isEmpty

/-- Python `dict.get(key, default)` on a JSON object's pair list (keys unique,
first match). -/
def pyGet (pairs : List (String × Json)) (key : String) (dflt : Json) : Json :=
  match pairs.find? (fun kv => kv.1 == key) with
  | some kv => kv.2
  | none => dflt

/-- Python `dict.get(key)` (no default): `None` when absent.  The caller
distinguishes an absent key from a present JSON `null`; Python conflates
both into `None`, which `Connection.suggestedLinkValue` below reconciles. -/
def pyGetOpt (pairs : List (String × Json)) (key : String) : Option Json :=
  (pairs.find? (fun kv => kv.1 == key)).map (·.2)

/-- Python `value > x` for a JSON-decoded `value` against a number:
numbers compare numerically, booleans as 0/1, anything else raises
`TypeError` (modelled as `none`). -/
def pyGtNum (v : Json) (x : ℚ) : Option Bool :=
  match v with
  | .num q => some (decide (x < q))
  | .bool b => some (decide (x < (if b then 1 else 0)))
  | _ => none

/-- Python `value < x` for a JSON-decoded `value` against a number. -/
def pyLtNum (v : Json) (x : ℚ) : Option Bool :=
  match v with
  | .num q => some (decide (q < x))
  | .bool b => some (decide ((if b then (1:ℚ) else 0) < x))
  | _ => none

/-- Python `value in list_of_strings` (`==`-based membership; a non-string
JSON value is simply not equal to any string, no error). -/
def jsonInStrList (v : Json) (l : List String) : Bool :=
  match v with
  | .str s => l.contains s
  | _ => false

/-- The `AnalysisResult` dataclass.  The textual / list fields hold whatever
JSON value `result_data.get` returned (Python performs no validation). -/
structure AnalysisResult where
  file_path : String
  primary_topic : Json
  content_type : Json
  key_concepts : Json
  temporal_markers : Json
  project_references : Json
  relationship_hints : Json
  confidence : Json
  analyzed_at : ℚ

/-- The `Connection` dataclass (also the shape of a row of the `connections`
table, minus the surrogate id). -/
structure Connection where
  source_file : String
  target_file : String
  connection_type : Json
  strength_score : Json
  confidence : Json
  reason : Json
  suggested_link : Option Json
  auto_applied : Bool
  created_at : ℚ

/-- Result-construction step of `OllamaClient.analyze_file_content`
(lines 135-151): given the JSON extracted from the model response, build
the `AnalysisResult` or return `None`.  A truthy non-dict response makes
`.get` raise, which the surrounding `except` turns into `None`. -/
def buildAnalysisResult (filePath : String) (now : ℚ) (resultData : Option Json) :
    Option AnalysisResult :=
  match resultData with
  | none => none
  | some j =>
    if j.truthy then
      match j with
      | .obj kvs =>
        some {
          file_path := filePath
          primary_topic := pyGet kvs "primary_topic" (.str "Unknown")
          content_type := pyGet kvs "content_type" (.str "unknown")
          key_concepts := pyGet kvs "key_concepts" (.arr [])
          temporal_markers := pyGet kvs "temporal_markers" (.arr [])
          project_references := pyGet kvs "project_references" (.arr [])
          relationship_hints := pyGet kvs "relationship_hints" (.arr [])
          confidence := pyGet kvs "confidence" (.num (mkRat 1 2))
          analyzed_at := now }
      | _ => none
    else none

/-- Result-construction step of `OllamaClient.analyze_connection`
(lines 185-200): the score gate `result_data.get('connection_score', 0) > 2`
precedes construction; a `TypeError` from comparing a non-numeric score is
caught by the surrounding `except` and yields `None`. -/
def buildConnection (a b : AnalysisResult) (now : ℚ) (resultData : Option Json) :
    Option Connection :=
  match resultData with
  | none => none
  | some j =>
    if j.truthy then
      match j with
      | .obj kvs =>
        match pyGtNum (pyGet kvs "connection_score" (.num 0)) 2 with
        | some true =>
          some {
            source_file := a.file_path
            target_file := b.file_path
            connection_type := pyGet kvs "connection_type" (.str "thematic")
            strength_score := pyGet kvs "connection_score" (.num 0)
            confidence := pyGet kvs "confidence" (.num (mkRat 1 2))
            reason := pyGet kvs "reason" (.str "No reason provided")
            suggested_link := pyGetOpt kvs "suggested_link"
            auto_applied := false
            created_at := now }
        | _ => none
      | _ => none
    else none

/-- JSON whitespace (the characters `json.loads` skips between tokens). -/
def isJsonWs (c : Char) : Bool :=
  [' ', '\t', '\n', '\r'].contains c

def skipWs (cs : List Char) : List Char :=
  cs.dropWhile isJsonWs

def hexVal (c : Char) : Option Nat :=
  let n := c.toNat
  if 48 ≤ n && n ≤ 57 then some (n - 48)
  else if 97 ≤ n && n ≤ 102 then some (n - 87)
  else if 65 ≤ n && n ≤ 70 then some (n - 55)
  else none

/-- Single-character JSON string escapes. -/
def escChar : Char → Option Char
  | '"' => some '"'
  | '\\' => some '\\'
  | '/' => some '/'
  | 'b' => some (Char.ofNat 8)
  | 'f' => some (Char.ofNat 12)
  | 'n' => some '\n'
  | 'r' => some '\r'
  | 't' => some '\t'
  | _ => none

/-- Body of a JSON string literal, starting just after the opening quote.
Unescaped control characters are rejected (strict mode, the `json.loads`
default). -/
def parseStrBody : List Char → Option (String × List Char)
  | [] => none
  | c :: rest =>
    if c == '"' then some ("", rest)
    else if c == '\\' then
      match rest with
      | 'u' :: h1 :: h2 :: h3 :: h4 :: rest' =>
        match hexVal h1, hexVal h2, hexVal h3, hexVal h4 with
        | some a, some b, some c3, some d =>
          (parseStrBody rest').map fun sr => (⟨Char.ofNat (((a*16+b)*16+c3)*16+d) :: sr.1.data⟩, sr.2)
        | _, _, _, _ => none
      | e :: rest' =>
        match escChar e with
        | some ec => (parseStrBody rest').map fun sr => (⟨ec :: sr.1.data⟩, sr.2)
        | none => none
      | [] => none
    else if c.toNat < 32 then none
    else (parseStrBody rest).map fun sr => (⟨c :: sr.1.data⟩, sr.2)

def digitsToNat (ds : List Char) : Nat :=
  ds.foldl (fun n c => n * 10 + (c.toNat - 48)) 0

/-- Optional fraction part (`.digits`); no dot means fraction `0`. -/
def parseFrac : List Char → Option (ℚ × List Char)
  | '.' :: r =>
    match r.span Char.isDigit with
    | (fds, r') =>
      if fds.isEmpty then none
      else some (mkRat (digitsToNat fds) (10 ^ fds.length), r')
  | cs => some (0, cs)

/-- Optional exponent part (`e`/`E`, optional sign, digits). -/
def parseExp : List Char → Option (ℤ × List Char)
  | [] => some (0, [])
  | e :: r =>
    if e == 'e' || e == 'E' then
      let (sgn, r1) : ℤ × List Char :=
        match r with
        | '+' :: t => (1, t)
        | '-' :: t => (-1, t)
        | _ => (1, r)
      match r1.span Char.isDigit with
      | (eds, r2) => if eds.isEmpty then none else some (sgn * (digitsToNat eds : ℤ), r2)
    else some (0, e :: r)

/-- Unsigned JSON number (integer part may not have a leading zero). -/
def parseNumMag (cs : List Char) : Option (ℚ × List Char) :=
  match cs.span Char.isDigit with
  | (intDs, r1) =>
    if intDs.isEmpty then none
    else if intDs.length > 1 && intDs.head? == some '0' then none
    else
      match parseFrac r1 with
      | none => none
      | some (f, r2) =>
        match parseExp r2 with
        | none => none
        | some (e, r3) => some (((digitsToNat intDs : ℚ) + f) * (10 : ℚ) ^ e, r3)

/-- JSON number with optional leading minus.  (`json.loads`' nonstandard
`NaN`/`Infinity` extensions are not modelled; no claim exercises them.) -/
def parseNumber : List Char → Option (ℚ × List Char)
  | '-' :: r => (parseNumMag r).map fun qr => (-qr.1, qr.2)
  | cs => parseNumMag cs

/-- Record a key/value pair the way `dict` construction does: a duplicate
key overwrites the value in place, a fresh key appends. -/
def objSet (k : String) (v : Json) : List (String × Json) → List (String × Json)
  | [] => [(k, v)]
  | (k', v') :: t => if k' == k then (k, v) :: t else (k', v') :: objSet k v t

mutual

/-- Recursive-descent JSON value parser (the grammar `json.loads` accepts);
`fuel` only bounds recursion depth and is supplied ≥ input length + 1. -/
def parseValue : Nat → List Char → Option (Json × List Char)
  | 0, _ => none
  | fuel+1, cs =>
    match skipWs cs with
    | [] => none
    | '{' :: rest =>
      match skipWs rest with
      | '}' :: rest' => some (.obj [], rest')
      | _ => parseMembers fuel rest []
    | '[' :: rest =>
      match skipWs rest with
      | ']' :: rest' => some (.arr [], rest')
      | _ => parseElems fuel rest []
    | '"' :: rest => (parseStrBody rest).map fun sr => (.str sr.1, sr.2)
    | 't' :: 'r' :: 'u' :: 'e' :: rest => some (.bool true, rest)
    | 'f' :: 'a' :: 'l' :: 's' :: 'e' :: rest => some (.bool false, rest)
    | 'n' :: 'u' :: 'l' :: 'l' :: rest => some (.null, rest)
    | cs' => (parseNumber cs').map fun qr => (.num qr.1, qr.2)

/-- One or more `"key": value` members followed by `}`. -/
def parseMembers : Nat → List Char → List (String × Json) → Option (Json × List Char)
  | 0, _, _ => none
  | fuel+1, cs, acc =>
    match skipWs cs with
    | '"' :: rest =>
      match parseStrBody rest with
      | none => none
      | some (k, r1) =>
        match skipWs r1 with
        | ':' :: r2 =>
          match parseValue fuel r2 with
          | none => none
          | some (v, r3) =>
            match skipWs r3 with
            | ',' :: r4 => parseMembers fuel r4 (objSet k v acc)
            | '}' :: r4 => some (.obj (objSet k v acc), r4)
            | _ => none
        | _ => none
    | _ => none

/-- One or more array elements followed by `]`. -/
def parseElems : Nat → List Char → List Json → Option (Json × List Char)
  | 0, _, _ => none
  | fuel+1, cs, acc =>
    match parseValue fuel cs with
    | none => none
    | some (v, r1) =>
      match skipWs r1 with
      | ',' :: r2 => parseElems fuel r2 (acc ++ [v])
      | ']' :: r2 => some (.arr (acc ++ [v]), r2)
      | _ => none

end

/-- Models `json.loads`: parse one value, then require only whitespace to follow. -/
def jsonLoads (s : String) : Option Json :=
  match parseValue (s.data.length + 1) s.data with
  | some (j, rest) => if (skipWs rest).isEmpty then some j else none
  | none => none

/-- Longest run of non-brace characters (`[^{}]*`, which is greedy and
admits no backtracking since it can never cover a brace). -/
def skipNonBrace (cs : List Char) : List Char :=
  cs.dropWhile (fun c => c != '{' && c != '}')

/-- Tail of one attempt of the pattern `\x7b[^\x7b\x7d]*(?:\x7b[^\x7b\x7d]*\x7d[^\x7b\x7d]*)*\x7d`
after its leading brace: alternately skip non-braces and one-level inner
objects; a second-level `\x7b` aborts the whole attempt (the group's pieces
cannot shrink, so regex backtracking cannot recover). Returns the input
remaining after the closing brace of the match. -/
def matchTailF : Nat → List Char → Option (List Char)
  | 0, _ => none
  | fuel+1, cs =>
    match skipNonBrace cs with
    | '}' :: rest => some rest
    | '{' :: rest =>
      match skipNonBrace rest with
      | '}' :: rest2 => matchTailF fuel rest2
      | _ => none
    | _ => none

/-- One match attempt anchored at the head of `cs`, returning the matched
text and the remaining input. -/
def tryMatch (cs : List Char) : Option (List Char × List Char) :=
  match cs with
  | '{' :: rest =>
    match matchTailF (rest.length + 1) rest with
    | some r => some (cs.take (cs.length - r.length), r)
    | none => none
  | _ => none

/-- Models `re.findall` for the brace pattern: slide the attempt point right one
character on failure, resume after the match on success (matches are
non-overlapping). -/
def findallF : Nat → List Char → List (List Char)
  | 0, _ => []
  | _, [] => []
  | fuel+1, c :: rest =>
    match tryMatch (c :: rest) with
    | some (m, r) => m :: findallF fuel r
    | none => findallF fuel rest

def findallMatches (s : String) : List String :=
  (findallF s.data.length s.data).map fun cs => ⟨cs⟩

/-- First successful parse among the candidate substrings (the
`for match in matches: try: return json.loads(match)` loop). -/
def firstSome : List (Option Json) → Option Json
  | [] => none
  | some j :: _ => some j
  | none :: t => firstSome t

/-- Embeds `OllamaClient.extract_json_from_response` (lines 85-105): `None` or an
empty response is rejected up front, then the full response is parsed, then
each regex-extracted candidate in order; `None` if nothing parses. -/
def extractJsonFromResponse (response : Option String) : Option Json :=
  match response with
  | none => none
  | some s =>
    if s == "" then none
    else
      match jsonLoads s with
      | some j => some j
      | none => firstSome ((findallMatches s).map jsonLoads)

/-- Modelled from the claim's words, for stating C7 only: a string is a
balanced brace-delimited object if it starts with `\x7b`, ends with the
matching `\x7d`, and the raw brace depth stays positive strictly inside. -/
def balGo : Nat → List Char → Bool
  | _, [] => false
  | d, c :: rest =>
    if c == '{' then balGo (d+1) rest
    else if c == '}' then (if d == 1 then rest.isEmpty else balGo (d-1) rest)
    else balGo d rest

def balancedDelimited (s : String) : Bool :=
  match s.data with
  | '{' :: rest => balGo 1 rest
  | _ => false

/-- Recursion core of Python `str.replace`: the fuel only pads the
non-structural `drop` step and is supplied ≥ the list length. -/
def replaceAllF (pat rep : List Char) : Nat → List Char → List Char
  | _, [] => []
  | 0, _ :: _ => []
  | n+1, c :: s =>
    if pat.isPrefixOf (c :: s) then rep ++ replaceAllF pat rep n (s.drop (pat.length - 1))
    else c :: replaceAllF pat rep n s

/-- Python `str.replace(pat, rep)` (all non-overlapping occurrences, left to
right), on character lists.  Only ever used with a nonempty `pat`. -/
def replaceAll (pat rep s : List Char) : List Char :=
  replaceAllF pat rep s.length s

/-- Split at the first occurrence of `pat`: `some (pre, suf)` with the
input equal to `pre ++ pat ++ suf`, `pre` shortest possible; `none` when
`pat` does not occur.  Helper mirroring the recursion of `replaceAll`. -/
def splitFirst (pat : List Char) : List Char → Option (List Char × List Char)
  | [] => none
  | c :: s =>
    if pat.isPrefixOf (c :: s) then some ([], s.drop (pat.length - 1))
    else (splitFirst pat s).map fun pq => (c :: pq.1, pq.2)

/-- Python `pat in s` (substring test) for nonempty `pat`. -/
def occursB (pat s : List Char) : Bool :=
  (splitFirst pat s).isSome

/-- Recursion core of Python `s.count(pat)`, fuelled like `replaceAllF`. -/
def countOccF (pat : List Char) : Nat → List Char → Nat
  | _, [] => 0
  | 0, _ :: _ => 0
  | n+1, c :: s =>
    if pat.isPrefixOf (c :: s) then 1 + countOccF pat n (s.drop (pat.length - 1))
    else countOccF pat n s

/-- Number of non-overlapping left-to-right occurrences
(Python `s.count(pat)`), same recursion as `replaceAll`. -/
def countOcc (pat s : List Char) : Nat :=
  countOccF pat s.length s

def pyIsSpace (c : Char) : Bool :=
  [' ', '\t', '\n', '\r', Char.ofNat 11, Char.ofNat 12].contains c

/-- Python `str.rstrip()`. -/
def rstrip (cs : List Char) : List Char :=
  (cs.reverse.dropWhile pyIsSpace).reverse

/-- Final path component (`pathlib`'s `Path(...).name`). -/
def lastComponent (cs : List Char) : List Char :=
  (cs.reverse.takeWhile (· != '/')).reverse

/-- Models `pathlib`'s `Path(...).stem`: the final component minus its suffix; a
dot that is the first or last character of the name starts no suffix. -/
def stemChars (cs : List Char) : List Char :=
  let name := lastComponent cs
  let afterDot := name.reverse.takeWhile (· != '.')
  if afterDot.length == name.length then name
  else if afterDot.length == 0 then name
  else if name.length - afterDot.length - 1 == 0 then name
  else name.take (name.length - afterDot.length - 1)

def stem (s : String) : String :=
  ⟨stemChars s.data⟩

/-- Python `f"...{value}..."` string conversion of a JSON-decoded value.
Exact for strings, `None` and booleans (the shapes the analyzer emits);
numeric and container formatting is approximated, and no claim depends
on it. -/
def pyFormat : Json → List Char
  | .str s => s.data
  | .null => "None".data
  | .bool b => (if b then "True" else "False").data
  | .num q => (toString q).data
  | .arr _ => "[...]".data
  | .obj _ => "\x7b...\x7d".data

/-- The link line built by `_apply_connection` (lines 677-681): the
suggested link text is appended only when truthy. -/
def mkLinkText (targetName : String) (suggested : Option Json) : List Char :=
  match suggested with
  | some j =>
    if j.truthy then ("- [[" ++ targetName ++ "]] - ").data ++ pyFormat j
    else ("- [[" ++ targetName ++ "]]").data
  | none => ("- [[" ++ targetName ++ "]]").data

def relNotesChars : List Char := "## Related Notes".data

def seeAlsoChars : List Char := "## See Also".data

/-- Section-insertion logic of `_apply_connection` (lines 683-698): insert
under an existing "## Related Notes" header via `str.replace`, else under
an existing "## See Also" header, else append a fresh section at
end-of-file. -/
def applyContent (content link : List Char) : List Char :=
  if occursB relNotesChars content then
    replaceAll relNotesChars (relNotesChars ++ '\n' :: link) content
  else if occursB seeAlsoChars content then
    replaceAll seeAlsoChars (seeAlsoChars ++ '\n' :: link) content
  else
    rstrip content ++ "\n\n## Related Notes\n\n".data ++ link ++ ['\n']

/-- The hourly auto-apply throttle state
(`connection_application_count` / `last_connection_hour`). -/
structure HourState where
  count : Nat
  lastHour : ℤ

/-- Embeds `_apply_connection` (lines 663-711): the source file's content is
`some` when the file exists (a read failure is subsumed by `none`); on
success the rewritten content is returned, the in-memory connection's
`auto_applied` flag is set and the hourly counter is incremented.  Nothing
else is touched — in particular no database row. -/
def applyConnection (srcContent : Option (List Char)) (tgtExists : Bool)
    (c : Connection) (st : HourState) :
    Bool × Option (List Char) × Connection × HourState :=
  match srcContent, tgtExists with
  | some content, true =>
    let link := mkLinkText (stem c.target_file) c.suggested_link
    (true, some (applyContent content link), { c with auto_applied := true },
      { st with count := st.count + 1 })
  | _, _ => (false, srcContent, c, st)

/-- Embeds `DatabaseManager.save_connection`: plain `INSERT` of the dataclass
fields (the `connections` table is append-only, id omitted). -/
def saveConnection (db : List Connection) (c : Connection) : List Connection :=
  db ++ [c]

/-- SQLite `value >= x` for a REAL bound `x`: `NULL` compares unknown
(row filtered out), numerics compare numerically, TEXT sorts above every
number. -/
def sqliteGeNum (v : Json) (x : ℚ) : Bool :=
  match v with
  | .null => false
  | .bool b => decide (x ≤ (if b then 1 else 0))
  | .num q => decide (x ≤ q)
  | _ => true

def sqliteRank : Json → Nat
  | .null => 0
  | .bool _ => 1
  | .num _ => 1
  | .str _ => 2
  | _ => 3

def sqliteNumVal : Json → ℚ
  | .bool b => if b then 1 else 0
  | .num q => q
  | _ => 0

/-- SQLite value ordering (`NULL < numeric < text`), enough for the
`ORDER BY` column types that actually occur. -/
def sqliteValLt (a b : Json) : Bool :=
  if sqliteRank a < sqliteRank b then true
  else if sqliteRank b < sqliteRank a then false
  else
    match a, b with
    | .str s1, .str s2 => decide (s1 < s2)
    | _, _ => decide (sqliteNumVal a < sqliteNumVal b)

/-- Strict "comes earlier" for `ORDER BY strength_score DESC, confidence
DESC`. -/
def pendingBefore (a b : Connection) : Bool :=
  sqliteValLt b.strength_score a.strength_score ||
    (!sqliteValLt a.strength_score b.strength_score &&
      !sqliteValLt b.strength_score a.strength_score &&
      sqliteValLt b.confidence a.confidence)

def orderInsert (a : Connection) : List Connection → List Connection
  | [] => [a]
  | b :: t => if pendingBefore a b then a :: b :: t else b :: orderInsert a t

def orderPending (l : List Connection) : List Connection :=
  l.foldr orderInsert []

/-- Embeds `DatabaseManager.get_pending_connections` (lines 322-346):
`WHERE auto_applied = FALSE AND strength_score >= ? AND confidence >= ?
ORDER BY strength_score DESC, confidence DESC`.  Source defaults:
`min_score=6`, `min_confidence=0.7`. -/
def getPendingConnections (db : List Connection) (minScore minConfidence : ℚ) :
    List Connection :=
  orderPending (db.filter fun r =>
    !r.auto_applied && sqliteGeNum r.strength_score minScore &&
      sqliteGeNum r.confidence minConfidence)

/-- The `auto_apply` block of `default_config`. -/
structure AutoApplyConfig where
  enabled : Bool
  confidence_threshold : ℚ
  strength_threshold : ℚ
  max_per_hour : Nat
  safe_connection_types : List String

def defaultAutoApply : AutoApplyConfig :=
  { enabled := true
    confidence_threshold := mkRat 3 4
    strength_threshold := 7
    max_per_hour := 15
    safe_connection_types := ["temporal", "project", "thematic"] }

/-- The hour-rollover reset at the top of `_should_auto_apply_connection`
(lines 641-646). -/
def resetHourlyCounter (st : HourState) (currentHour : ℤ) : HourState :=
  if currentHour != st.lastHour then ⟨0, currentHour⟩ else st

/-- Embeds `_should_auto_apply_connection` (lines 639-661).  The checks run in
source order: hourly cap, confidence/strength thresholds (Python `or`
short-circuits), type allow-list, then the global enabled flag is the
returned value.  A `TypeError` from a non-numeric threshold comparison is
modelled as `none` (it would escape to the discovery loop's handler). -/
def shouldAutoApplyConnection (cfg : AutoApplyConfig) (st : HourState)
    (currentHour : ℤ) (c : Connection) : Option Bool × HourState :=
  let st' := resetHourlyCounter st currentHour
  if cfg.max_per_hour ≤ st'.count then (some false, st')
  else
    match pyLtNum c.confidence cfg.confidence_threshold with
    | none => (none, st')
    | some true => (some false, st')
    | some false =>
      match pyLtNum c.strength_score cfg.strength_threshold with
      | none => (none, st')
      | some true => (some false, st')
      | some false =>
        if !jsonInStrList c.connection_type cfg.safe_connection_types then (some false, st')
        else (some cfg.enabled, st')

/-- The per-discovered-connection slice of `_connection_analyzer_loop`
(lines 612-623): persist the connection, then evaluate the auto-apply
policy and, when it accepts, run `_apply_connection`.  Returns the
database, throttle state, source-file content and in-memory connection
afterwards. -/
def handleFoundConnection (cfg : AutoApplyConfig) (db : List Connection)
    (st : HourState) (currentHour : ℤ) (srcContent : Option (List Char))
    (tgtExists : Bool) (c : Connection) :
    List Connection × HourState × Option (List Char) × Connection :=
  let db' := saveConnection db c
  match shouldAutoApplyConnection cfg st currentHour c with
  | (some true, st₁) =>
    let r := applyConnection srcContent tgtExists c st₁
    (db', r.2.2.2, r.2.1, r.2.2.1)
  | (_, st₁) => (db', st₁, srcContent, c)

/-- In the discovery loop, `save_connection` is reached only under `if connection:`
(lines 612-613). -/
def discoverStep (db : List Connection) (oc : Option Connection) : List Connection :=
  match oc with
  | some c => saveConnection db c
  | none => db

/-- The attributes of a file visible to the scanner: its textual path, its
`pathlib` suffix, its size in bytes, and the result of `_get_file_hash`
(`none` models an unreadable file). -/
structure VaultFile where
  pathStr : String
  suffix : String
  sizeBytes : Nat
  contentHash : Option String

/-- The `safety` block of `default_config`. -/
structure SafetyConfig where
  max_file_size_mb : ℚ
  skip_patterns : List String

def defaultSafety : SafetyConfig :=
  { max_file_size_mb := 5
    skip_patterns := [".git", ".obsidian", "temp", ".temp", "__pycache__"] }

/-- Embeds `_should_process_file` (lines 504-521): size cap in MB, then the
case-insensitive substring exclusion list (the path is lowercased, the
patterns are used as written), then the extension filter. -/
def shouldProcessFile (cfg : SafetyConfig) (f : VaultFile) : Bool :=
  if (f.sizeBytes : ℚ) / (1024 * 1024) > cfg.max_file_size_mb then false
  else if cfg.skip_patterns.any (fun p => occursB p.data (f.pathStr.data.map Char.toLower)) then false
  else f.suffix.data.map Char.toLower == ".md".data

/-- One enqueue event produced by a scan or by `force_analysis` (the
`_queue_analysis_task` call with its `priority` and `task_type`
arguments). -/
structure AnalysisTask where
  path : String
  priority : Nat
  taskType : String
deriving DecidableEq

def baselineGet : List (String × String) → String → Option String
  | [], _ => none
  | kv :: t, p => if kv.1 == p then some kv.2 else baselineGet t p

/-- Models `self.file_hashes[path_str] = file_hash` on an association list. -/
def baselineSet (p h : String) : List (String × String) → List (String × String)
  | [] => [(p, h)]
  | kv :: t => if kv.1 == p then (p, h) :: t else kv :: baselineSet p h t

/-- Body of `_scan_vault_files`' for-loop (lines 473-495) over the files it
enumerates: skip files failing the inclusion policy or hashing, enqueue a
priority-1 `new_file` task for an unknown path, a priority-2
`modified_file` task for a changed fingerprint, and update the baseline
unconditionally. -/
def scanGo (cfg : SafetyConfig) :
    List VaultFile → List (String × String) → List AnalysisTask × List (String × String)
  | [], b => ([], b)
  | f :: fs, b =>
    if shouldProcessFile cfg f then
      match f.contentHash with
      | none => scanGo cfg fs b
      | some h =>
        let rest := scanGo cfg fs (baselineSet f.pathStr h b)
        match baselineGet b f.pathStr with
        | none => (⟨f.pathStr, 1, "new_file"⟩ :: rest.1, rest.2)
        | some h₀ => if h₀ != h then (⟨f.pathStr, 2, "modified_file"⟩ :: rest.1, rest.2) else rest
    else scanGo cfg fs b

/-- Models `self.vault_path.rglob("*.md")`: the files of the tree whose name ends
in `.md` (case-sensitively). -/
def rglobMd (tree : List VaultFile) : List VaultFile :=
  tree.filter fun f => ".md".data.isSuffixOf f.pathStr.data

/-- Embeds `_scan_vault_files` (lines 466-502) as a function of the watch
baseline and the current tree: the enqueue events and the new baseline. -/
def scanVaultFiles (cfg : SafetyConfig) (baseline : List (String × String))
    (tree : List VaultFile) : List AnalysisTask × List (String × String) :=
  scanGo cfg (rglobMd tree) baseline

/-- Repeated invocations of `_scan_vault_files` as the monitor loop
performs them: each scan sees the tree as it then stands (`trees` lists
the successive states) and runs on the baseline the previous scan left
behind; the enqueue events of all scans are collected. -/
def scanRepeat (cfg : SafetyConfig) :
    List (List VaultFile) → List (String × String) →
      List AnalysisTask × List (String × String)
  | [], b => ([], b)
  | tr :: trs, b =>
    let r1 := scanVaultFiles cfg b tr
    let r2 := scanRepeat cfg trs r1.2
    (r1.1 ++ r2.1, r2.2)

/-- Embeds `force_analysis(file_path)` with a specific path (lines 750-754): an
existence check and an immediate priority-0 enqueue, with no call to
`_should_process_file`. -/
def forceAnalysisPath (pathExists : Bool) (p : String) : List AnalysisTask :=
  if pathExists then [⟨p, 0, "forced"⟩] else []

/-- Embeds `force_analysis()` without a path (lines 755-760): the inclusion
policy is applied to every `*.md` file of the tree before enqueueing at
priority 0. -/
def forceAnalysisAll (cfg : SafetyConfig) (tree : List VaultFile) : List AnalysisTask :=
  ((rglobMd tree).filter (shouldProcessFile cfg)).map fun f => ⟨f.pathStr, 0, "forced"⟩

/-- An element of the `PriorityQueue`: `_queue_analysis_task` puts the
tuple `(priority, -time.time(), task)` (line 540), so the heap's
minimum-first order is (priority ascending, enqueue time descending). -/
structure QueueEntry where
  priority : Nat
  negQueuedAt : ℚ
  path : String
deriving DecidableEq

/-- Models `task_queue.put((priority, -time.time(), task))`. -/
def enqueueTask (q : List QueueEntry) (path : String) (priority : Nat) (now : ℚ) :
    List QueueEntry :=
  q ++ [⟨priority, -now, path⟩]

/-- The tuple order `heapq` compares on (the task dict itself is reached
only on full key ties, which distinct enqueue instants rule out). -/
def entryKeyLe (a b : QueueEntry) : Prop :=
  a.priority < b.priority ∨ (a.priority = b.priority ∧ a.negQueuedAt ≤ b.negQueuedAt)

instance (a b : QueueEntry) : Decidable (entryKeyLe a b) := by
  unfold entryKeyLe; infer_instance

/-- Select the heap minimum (leftmost among key ties) and the remaining
entries: the observable behaviour of `task_queue.get()`. -/
def popMinEntry (m : QueueEntry) : List QueueEntry → QueueEntry × List QueueEntry
  | [] => (m, [])
  | e :: es =>
    if entryKeyLe m e then
      let r := popMinEntry m es
      (r.1, e :: r.2)
    else
      let r := popMinEntry e es
      (r.1, m :: r.2)

/-- Repeatedly `get()` until the queue is empty (the order in which
`_task_processor_loop` consumes a batch of queued tasks when nothing new
arrives). -/
def drainFuel : Nat → List QueueEntry → List QueueEntry
  | 0, _ => []
  | _+1, [] => []
  | n+1, e :: es =>
    let r := popMinEntry e es
    r.1 :: drainFuel n r.2

def drainQueue (q : List QueueEntry) : List QueueEntry :=
  drainFuel q.length q

/-! ### Helper lemmas -/

theorem pyGet_of_absent {kvs : List (String × Json)} {k : String} (d : Json)
    (h : pyGetOpt kvs k = none) : pyGet kvs k d = d := by
  unfold pyGet
  unfold pyGetOpt at h
  cases hf : kvs.find? (fun kv => kv.1 == k) with
  | none => rfl
  | some kv => rw [hf] at h; simp at h

theorem buildConnection_score_pos {a b : AnalysisResult} {now : ℚ} {rd : Option Json}
    {c : Connection} (h : buildConnection a b now rd = some c) :
    ∃ q : ℚ, c.strength_score = .num q ∧ 2 < q := by
  cases rd with
  | none => exact absurd h (by simp [buildConnection])
  | some j =>
    simp only [buildConnection] at h
    split at h
    · split at h
      · rename_i kvs htr
        split at h
        · rename_i heq
          cases h
          cases hv : pyGet kvs "connection_score" (.num 0) with
          | num q =>
            rw [hv] at heq
            simp only [pyGtNum, Option.some.injEq, decide_eq_true_eq] at heq
            exact ⟨q, by simp [hv], heq⟩
          | bool b0 =>
            rw [hv] at heq
            cases b0 <;> simp only [pyGtNum, Option.some.injEq, decide_eq_true_eq,
              if_true, if_false] at heq <;> norm_num at heq
          | null => rw [hv] at heq; simp [pyGtNum] at heq
          | str s => rw [hv] at heq; simp [pyGtNum] at heq
          | arr l => rw [hv] at heq; simp [pyGtNum] at heq
          | obj l => rw [hv] at heq; simp [pyGtNum] at heq
        · exact absurd h (by simp)
      · exact absurd h (by simp)
    · exact absurd h (by simp)

/-! ### Claims -/

/-- Claim C4: `analyze_connection` never returns a connection whose score
is at or below 2, and since the discovery loop calls `save_connection`
only under `if connection:`, every row it adds to the store carries a
score strictly above 2. -/
theorem c4_no_low_score_saved (db : List Connection) (a b : AnalysisResult)
    (now : ℚ) (rd : Option Json) (c : Connection)
    (hc : c ∈ discoverStep db (buildConnection a b now rd)) :
    c ∈ db ∨ ∃ q : ℚ, c.strength_score = .num q ∧ 2 < q := by
  unfold discoverStep at hc
  cases hbc : buildConnection a b now rd with
  | none => rw [hbc] at hc; exact Or.inl hc
  | some c' =>
    rw [hbc] at hc
    unfold saveConnection at hc
    rcases List.mem_append.mp hc with hdb | hnew
    · exact Or.inl hdb
    · have : c = c' := List.mem_singleton.mp hnew
      subst this
      exact Or.inr (buildConnection_score_pos hbc)

def sampleAnalysisA : AnalysisResult :=
  ⟨"/v/a.md", .str "topic A", .str "technical", .arr [], .arr [], .arr [], .arr [], .num (mkRat 9 10), 0⟩

def sampleAnalysisB : AnalysisResult :=
  ⟨"/v/b.md", .str "topic B", .str "technical", .arr [], .arr [], .arr [], .arr [], .num (mkRat 9 10), 0⟩

theorem c4_no_low_score_saved_witness :
    ∃ q : ℚ,
      (Connection.mk "/v/a.md" "/v/b.md" (.str "thematic") (.num 8) (.num (mkRat 1 2))
        (.str "No reason provided") none false 0).strength_score = .num q ∧ 2 < q := by
  have hmem : (Connection.mk "/v/a.md" "/v/b.md" (.str "thematic") (.num 8) (.num (mkRat 1 2))
      (.str "No reason provided") none false 0) ∈
      discoverStep [] (buildConnection sampleAnalysisA sampleAnalysisB 0
        (some (.obj [("connection_score", .num 8)]))) := by
    rw [show discoverStep [] (buildConnection sampleAnalysisA sampleAnalysisB 0
      (some (.obj [("connection_score", .num 8)]))) =
      [Connection.mk "/v/a.md" "/v/b.md" (.str "thematic") (.num 8) (.num (mkRat 1 2))
        (.str "No reason provided") none false 0] from rfl]
    exact List.mem_singleton.mpr rfl
  rcases c4_no_low_score_saved [] sampleAnalysisA sampleAnalysisB 0
      (some (.obj [("connection_score", .num 8)])) _ hmem with hin | hq
  · exact absurd hin (by simp)
  · exact hq

/-- Claim C9 counterexample: a compareConnection response without a
`connection_type` field yields the default `"thematic"`, not the claimed
`"Unknown"` — not every textual field defaults to `"Unknown"`. -/
theorem c9_counterexample :
    (buildConnection sampleAnalysisA sampleAnalysisB 0
        (some (.obj [("connection_score", .num 5)]))).map Connection.connection_type =
      some (.str "thematic") ∧
    Json.str "thematic" ≠ Json.str "Unknown" := by
  refine ⟨rfl, fun hcontra => ?_⟩
  injection hcontra with hs
  exact absurd hs (by decide)

/-- Claim C9 (amended): an absent field is filled with that field's
hard-coded per-field default — for classify: `primary_topic` `"Unknown"`,
`content_type` `"unknown"`, the four list fields `[]`, `confidence` `0.5`;
for compareConnection: `connection_type` `"thematic"`, `confidence` `0.5`,
`reason` `"No reason provided"`, `suggested_link` `None`. -/
theorem c9_absent_field_defaults (fp : String) (now : ℚ)
    (kvs kvs2 : List (String × Json)) (a b : AnalysisResult)
    (ar : AnalysisResult) (c : Connection)
    (har : buildAnalysisResult fp now (some (.obj kvs)) = some ar)
    (hc : buildConnection a b now (some (.obj kvs2)) = some c) :
    (pyGetOpt kvs "primary_topic" = none → ar.primary_topic = .str "Unknown") ∧
    (pyGetOpt kvs "content_type" = none → ar.content_type = .str "unknown") ∧
    (pyGetOpt kvs "key_concepts" = none → ar.key_concepts = .arr []) ∧
    (pyGetOpt kvs "temporal_markers" = none → ar.temporal_markers = .arr []) ∧
    (pyGetOpt kvs "project_references" = none → ar.project_references = .arr []) ∧
    (pyGetOpt kvs "relationship_hints" = none → ar.relationship_hints = .arr []) ∧
    (pyGetOpt kvs "confidence" = none → ar.confidence = .num (mkRat 1 2)) ∧
    (pyGetOpt kvs2 "connection_type" = none → c.connection_type = .str "thematic") ∧
    (pyGetOpt kvs2 "confidence" = none → c.confidence = .num (mkRat 1 2)) ∧
    (pyGetOpt kvs2 "reason" = none → c.reason = .str "No reason provided") ∧
    (pyGetOpt kvs2 "suggested_link" = none → c.suggested_link = none) := by
  simp only [buildAnalysisResult] at har
  simp only [buildConnection] at hc
  split at har
  · cases har
    split at hc
    · split at hc
      · cases hc
        exact ⟨fun habs => pyGet_of_absent _ habs, fun habs => pyGet_of_absent _ habs,
          fun habs => pyGet_of_absent _ habs, fun habs => pyGet_of_absent _ habs,
          fun habs => pyGet_of_absent _ habs, fun habs => pyGet_of_absent _ habs,
          fun habs => pyGet_of_absent _ habs, fun habs => pyGet_of_absent _ habs,
          fun habs => pyGet_of_absent _ habs, fun habs => pyGet_of_absent _ habs,
          fun habs => habs⟩
      · exact absurd hc (by simp)
    · exact absurd hc (by simp)
  · exact absurd har (by simp)

def c9Classification : AnalysisResult :=
  ⟨"/v/c.md", .str "Unknown", .str "unknown", .arr [], .arr [], .arr [], .arr [],
    .num (mkRat 1 2), 0⟩

def c9Conn : Connection :=
  ⟨"/v/a.md", "/v/b.md", .str "thematic", .num 5, .num (mkRat 1 2),
    .str "No reason provided", none, false, 0⟩

theorem c9_absent_field_defaults_witness :
    c9Classification.primary_topic = .str "Unknown" ∧
    c9Classification.content_type = .str "unknown" ∧
    c9Classification.key_concepts = .arr [] ∧
    c9Classification.confidence = .num (mkRat 1 2) ∧
    c9Conn.connection_type = .str "thematic" ∧
    c9Conn.confidence = .num (mkRat 1 2) ∧
    c9Conn.reason = .str "No reason provided" ∧
    c9Conn.suggested_link = none := by
  have h := c9_absent_field_defaults "/v/c.md" 0 [("x", .num 1)]
    [("connection_score", .num 5)] sampleAnalysisA sampleAnalysisB
    c9Classification c9Conn rfl rfl
  exact ⟨h.1 rfl, h.2.1 rfl, h.2.2.1 rfl, h.2.2.2.2.2.2.1 rfl,
    h.2.2.2.2.2.2.2.1 rfl, h.2.2.2.2.2.2.2.2.1 rfl,
    h.2.2.2.2.2.2.2.2.2.1 rfl, h.2.2.2.2.2.2.2.2.2.2 rfl⟩

/-- Claim C2: after the hour-rollover reset, a counter at or above
`max_per_hour` forces a `False` answer regardless of the connection's
score and confidence, and (for numeric score and confidence) the answer
is `True` exactly when the counter is below the cap, confidence and
strength meet their thresholds, the connection type is in the allow-list,
and the global enabled flag is set. -/
theorem c2_should_auto_apply (cfg : AutoApplyConfig) (st : HourState)
    (hour : ℤ) (c : Connection) (qc qs : ℚ)
    (hqc : c.confidence = .num qc) (hqs : c.strength_score = .num qs) :
    (cfg.max_per_hour ≤ (resetHourlyCounter st hour).count →
      (shouldAutoApplyConnection cfg st hour c).1 = some false) ∧
    ((shouldAutoApplyConnection cfg st hour c).1 = some true ↔
      (resetHourlyCounter st hour).count < cfg.max_per_hour ∧
        cfg.confidence_threshold ≤ qc ∧ cfg.strength_threshold ≤ qs ∧
        jsonInStrList c.connection_type cfg.safe_connection_types = true ∧
        cfg.enabled = true) := by
  unfold shouldAutoApplyConnection
  rw [hqc, hqs]
  simp only [pyLtNum]
  constructor
  · intro hcap
    rw [if_pos hcap]
  · by_cases hcap : cfg.max_per_hour ≤ (resetHourlyCounter st hour).count
    · rw [if_pos hcap]
      simp only [Option.some.injEq]
      constructor
      · intro hfalse; exact absurd hfalse (by simp)
      · rintro ⟨hlt, -⟩; omega
    · rw [if_neg hcap]
      by_cases h1 : qc < cfg.confidence_threshold
      · rw [decide_eq_true h1]
        simp only [Option.some.injEq]
        constructor
        · intro hfalse; exact absurd hfalse (by simp)
        · rintro ⟨-, hge, -⟩; linarith
      · rw [decide_eq_false h1]
        by_cases h2 : qs < cfg.strength_threshold
        · rw [decide_eq_true h2]
          simp only [Option.some.injEq]
          constructor
          · intro hfalse; exact absurd hfalse (by simp)
          · rintro ⟨-, -, hge, -⟩; linarith
        · rw [decide_eq_false h2]
          by_cases h3 : jsonInStrList c.connection_type cfg.safe_connection_types = true
          · have hnot : ¬((!jsonInStrList c.connection_type cfg.safe_connection_types) = true) := by
              rw [h3]; simp
            rw [if_neg hnot]
            simp only [Option.some.injEq]
            constructor
            · intro henabled
              exact ⟨by omega, by linarith, by linarith, h3, henabled⟩
            · rintro ⟨-, -, -, -, henabled⟩; exact henabled
          · have hbf : jsonInStrList c.connection_type cfg.safe_connection_types = false :=
              Bool.eq_false_iff.mpr h3
            rw [hbf]
            simp only [Bool.not_false, if_true, Option.some.injEq]
            constructor
            · intro hfalse; exact absurd hfalse (by simp)
            · rintro ⟨-, -, -, hin, -⟩; exact absurd hin (by simp)

def c2Conn : Connection :=
  ⟨"/v/a.md", "/v/b.md", .str "thematic", .num 8, .num (mkRat 9 10),
    .str "shared theme", none, false, 0⟩

theorem c2_should_auto_apply_witness :
    (shouldAutoApplyConnection defaultAutoApply ⟨0, 0⟩ 0 c2Conn).1 = some true ∧
    (shouldAutoApplyConnection defaultAutoApply ⟨15, 0⟩ 0 c2Conn).1 = some false := by
  constructor
  · exact (c2_should_auto_apply defaultAutoApply ⟨0, 0⟩ 0 c2Conn (mkRat 9 10) 8 rfl rfl).2.mpr
      ⟨of_decide_eq_true rfl, of_decide_eq_true rfl, of_decide_eq_true rfl, rfl, rfl⟩
  · exact (c2_should_auto_apply defaultAutoApply ⟨15, 0⟩ 0 c2Conn (mkRat 9 10) 8 rfl rfl).1
      (of_decide_eq_true rfl)

/-- Claim C10: `force_analysis` with a specific existing path enqueues one
priority-0 forced task without consulting `_should_process_file` (the
hypothesis exhibits a file the policy rejects), while `force_analysis`
with no path enqueues exactly the `*.md` files of the tree that pass the
policy, at priority 0. -/
theorem c10_force_analysis (cfg : SafetyConfig) (f : VaultFile)
    (tree : List VaultFile)
    (_hreject : shouldProcessFile cfg f = false) :
    forceAnalysisPath true f.pathStr = [⟨f.pathStr, 0, "forced"⟩] ∧
    (∀ t ∈ forceAnalysisAll cfg tree, ∃ g ∈ rglobMd tree,
      t.path = g.pathStr ∧ shouldProcessFile cfg g = true ∧
      t.priority = 0 ∧ t.taskType = "forced") ∧
    (∀ g ∈ rglobMd tree, shouldProcessFile cfg g = true →
      (⟨g.pathStr, 0, "forced"⟩ : AnalysisTask) ∈ forceAnalysisAll cfg tree) := by
  refine ⟨rfl, ?_, ?_⟩
  · intro t ht
    unfold forceAnalysisAll at ht
    rcases List.mem_map.mp ht with ⟨g, hg, hmk⟩
    rcases List.mem_filter.mp hg with ⟨hgr, hgp⟩
    exact ⟨g, hgr, by rw [← hmk], hgp, by rw [← hmk], by rw [← hmk]⟩
  · intro g hg hgp
    unfold forceAnalysisAll
    exact List.mem_map.mpr ⟨g, List.mem_filter.mpr ⟨hg, hgp⟩, rfl⟩

def oversizedFile : VaultFile :=
  ⟨"/v/big.md", ".md", 6000000, some "h1"⟩

theorem c10_force_analysis_witness :
    forceAnalysisPath true oversizedFile.pathStr = [⟨"/v/big.md", 0, "forced"⟩] ∧
    (⟨"/v/ok.md", 0, "forced"⟩ : AnalysisTask) ∈
      forceAnalysisAll defaultSafety [⟨"/v/ok.md", ".md", 10, some "h2"⟩] := by
  have hbig : shouldProcessFile defaultSafety oversizedFile = false := by
    unfold shouldProcessFile
    rw [if_pos (show ((oversizedFile.sizeBytes : ℚ)) / (1024 * 1024) >
      defaultSafety.max_file_size_mb by norm_num [oversizedFile, defaultSafety])]
  have hok : shouldProcessFile defaultSafety ⟨"/v/ok.md", ".md", 10, some "h2"⟩ = true := by
    unfold shouldProcessFile
    rw [if_neg (show ¬((((10 : Nat) : ℚ)) / (1024 * 1024) >
      defaultSafety.max_file_size_mb) by norm_num [defaultSafety])]
    rfl
  have h := c10_force_analysis defaultSafety oversizedFile
    [⟨"/v/ok.md", ".md", 10, some "h2"⟩] hbig
  exact ⟨h.1, h.2.2 ⟨"/v/ok.md", ".md", 10, some "h2"⟩ (by simp [rglobMd]; decide) hok⟩

theorem scanGo_task_path_excluded (cfg : SafetyConfig) (p : String) :
    ∀ (files : List VaultFile) (b : List (String × String)),
      (∀ f ∈ files, f.pathStr = p → shouldProcessFile cfg f = false) →
      ∀ t ∈ (scanGo cfg files b).1, t.path ≠ p := by
  intro files
  induction files with
  | nil => intro b _ t ht; simp [scanGo] at ht
  | cons f fs ih =>
    intro b hex t ht
    have hextail : ∀ g ∈ fs, g.pathStr = p → shouldProcessFile cfg g = false :=
      fun g hg => hex g (List.mem_cons_of_mem f hg)
    simp only [scanGo] at ht
    split at ht
    · rename_i hproc
      split at ht
      · exact ih b hextail t ht
      · rename_i h hsome
        split at ht
        · rcases List.mem_cons.mp ht with heq | htail
          · subst heq
            intro hpe
            rw [hex f (List.mem_cons_self f fs) hpe] at hproc
            exact absurd hproc (by simp)
          · exact ih _ hextail t htail
        · split at ht
          · rcases List.mem_cons.mp ht with heq | htail
            · subst heq
              intro hpe
              rw [hex f (List.mem_cons_self f fs) hpe] at hproc
              exact absurd hproc (by simp)
            · exact ih _ hextail t htail
          · exact ih _ hextail t ht
    · exact ih b hextail t ht

/-- Claim C6: a file that exceeds the size cap, or whose lowercased path
contains an exclusion substring, or whose extension is not `.md`, fails
the inclusion policy, and a file failing the policy never produces a scan
enqueue for its path. -/
theorem c6_excluded_never_enqueued (cfg : SafetyConfig) (b : List (String × String))
    (tree : List VaultFile) (p : String) (f : VaultFile)
    (hbad : ((f.sizeBytes : ℚ) / (1024 * 1024) > cfg.max_file_size_mb ∨
      (∃ pat ∈ cfg.skip_patterns, occursB pat.data (f.pathStr.data.map Char.toLower) = true) ∨
      f.suffix.data.map Char.toLower ≠ ".md".data))
    (hex : ∀ g ∈ tree, g.pathStr = p → shouldProcessFile cfg g = false) :
    shouldProcessFile cfg f = false ∧
    ∀ t ∈ (scanVaultFiles cfg b tree).1, t.path ≠ p := by
  constructor
  · unfold shouldProcessFile
    rcases hbad with hsize | ⟨pat, hpat, hocc⟩ | hsuf
    · rw [if_pos hsize]
    · by_cases hsize : (f.sizeBytes : ℚ) / (1024 * 1024) > cfg.max_file_size_mb
      · rw [if_pos hsize]
      · rw [if_neg hsize]
        rw [if_pos (List.any_eq_true.mpr ⟨pat, hpat, hocc⟩)]
    · by_cases hsize : (f.sizeBytes : ℚ) / (1024 * 1024) > cfg.max_file_size_mb
      · rw [if_pos hsize]
      · rw [if_neg hsize]
        by_cases hskip : cfg.skip_patterns.any
            (fun pat => occursB pat.data (f.pathStr.data.map Char.toLower)) = true
        · rw [if_pos hskip]
        · rw [if_neg hskip]
          exact beq_eq_false_iff_ne.mpr hsuf
  · intro t ht
    refine scanGo_task_path_excluded cfg p (rglobMd tree) b ?_ t ht
    intro g hg
    exact hex g (List.mem_filter.mp hg).1

theorem c6_excluded_never_enqueued_witness :
    shouldProcessFile defaultSafety oversizedFile = false ∧
    ∀ t ∈ (scanVaultFiles defaultSafety [] [oversizedFile]).1, t.path ≠ "/v/big.md" := by
  refine c6_excluded_never_enqueued defaultSafety [] [oversizedFile] "/v/big.md"
    oversizedFile (Or.inl (by norm_num [oversizedFile, defaultSafety])) ?_
  intro g hg _
  rw [List.mem_singleton.mp hg]
  unfold shouldProcessFile
  rw [if_pos (show ((oversizedFile.sizeBytes : ℚ)) / (1024 * 1024) >
    defaultSafety.max_file_size_mb by norm_num [oversizedFile, defaultSafety])]

theorem baselineGet_set_self (p h : String) (b : List (String × String)) :
    baselineGet (baselineSet p h b) p = some h := by
  induction b with
  | nil => simp [baselineGet, baselineSet]
  | cons kv t ih =>
    unfold baselineSet
    by_cases hk : (kv.1 == p) = true
    · rw [if_pos hk]; simp [baselineGet]
    · rw [if_neg hk]
      unfold baselineGet
      rw [if_neg hk]
      exact ih

theorem baselineGet_set_other {q p : String} (h : String) (b : List (String × String))
    (hne : q ≠ p) : baselineGet (baselineSet p h b) q = baselineGet b q := by
  have hpq : ((p == q) = true) → False := fun hx => hne (eq_of_beq hx).symm
  induction b with
  | nil =>
    unfold baselineSet baselineGet
    rw [if_neg hpq]
    rfl
  | cons kv t ih =>
    unfold baselineSet
    by_cases hk : (kv.1 == p) = true
    · rw [if_pos hk]
      have hkp : kv.1 = p := eq_of_beq hk
      unfold baselineGet
      rw [if_neg hpq, if_neg (by rw [hkp]; exact hpq)]
    · rw [if_neg hk]
      unfold baselineGet
      by_cases hq : (kv.1 == q) = true
      · rw [if_pos hq, if_pos hq]
      · rw [if_neg hq, if_neg hq]
        exact ih

theorem baselineSet_noop {p h : String} {b : List (String × String)}
    (hb : baselineGet b p = some h) : baselineSet p h b = b := by
  induction b with
  | nil => simp [baselineGet] at hb
  | cons kv t ih =>
    unfold baselineSet
    by_cases hk : (kv.1 == p) = true
    · rw [if_pos hk]
      unfold baselineGet at hb
      rw [if_pos hk] at hb
      have hkp : kv.1 = p := eq_of_beq hk
      have hv : kv.2 = h := by injection hb
      rw [← hkp, ← hv]
    · rw [if_neg hk]
      unfold baselineGet at hb
      rw [if_neg hk] at hb
      rw [ih hb]

theorem scanGo_baseline_not_mem (cfg : SafetyConfig) (p : String) :
    ∀ (files : List VaultFile) (b : List (String × String)),
      (∀ f ∈ files, f.pathStr ≠ p) →
      baselineGet (scanGo cfg files b).2 p = baselineGet b p := by
  intro files
  induction files with
  | nil => intro b _; rfl
  | cons f fs ih =>
    intro b hne
    have hnetail : ∀ g ∈ fs, g.pathStr ≠ p := fun g hg => hne g (List.mem_cons_of_mem f hg)
    have hfp : f.pathStr ≠ p := hne f (List.mem_cons_self f fs)
    simp only [scanGo]
    by_cases hproc : shouldProcessFile cfg f = true
    · rw [if_pos hproc]
      cases hch : f.contentHash with
      | none => exact ih b hnetail
      | some h =>
        have hrec : baselineGet (scanGo cfg fs (baselineSet f.pathStr h b)).2 p =
            baselineGet b p := by
          rw [ih _ hnetail]
          exact baselineGet_set_other h b (fun hx => hfp hx.symm)
        dsimp only
        split
        · exact hrec
        · split
          · exact hrec
          · exact hrec
    · rw [if_neg hproc]
      exact ih b hnetail

theorem scanGo_baseline_of_mem (cfg : SafetyConfig) :
    ∀ (files : List VaultFile), (files.map VaultFile.pathStr).Nodup →
      ∀ f ∈ files, shouldProcessFile cfg f = true →
      ∀ h, f.contentHash = some h →
      ∀ b, baselineGet (scanGo cfg files b).2 f.pathStr = some h := by
  intro files
  induction files with
  | nil => intro _ f hf; simp at hf
  | cons g fs ih =>
    intro hnd f hf hproc h hhash b
    have hndtail : (fs.map VaultFile.pathStr).Nodup := (List.nodup_cons.mp hnd).2
    rcases List.mem_cons.mp hf with heq | htail
    · subst heq
      have hnot : ∀ g' ∈ fs, g'.pathStr ≠ f.pathStr := by
        intro g' hg' hx
        exact (List.nodup_cons.mp hnd).1 (hx ▸ List.mem_map_of_mem VaultFile.pathStr hg')
      simp only [scanGo]
      rw [if_pos hproc]
      cases hch : f.contentHash with
      | none => rw [hch] at hhash; exact absurd hhash (by simp)
      | some h' =>
        rw [hch] at hhash
        obtain rfl : h' = h := by injection hhash
        have hbase : baselineGet (scanGo cfg fs (baselineSet f.pathStr h' b)).2 f.pathStr =
            some h' := by
          rw [scanGo_baseline_not_mem cfg f.pathStr fs _ hnot]
          exact baselineGet_set_self f.pathStr h' b
        dsimp only
        split
        · exact hbase
        · split
          · exact hbase
          · exact hbase
    · simp only [scanGo]
      split
      · split
        · exact ih hndtail f htail hproc h hhash b
        · split
          · exact ih hndtail f htail hproc h hhash _
          · split
            · exact ih hndtail f htail hproc h hhash _
            · exact ih hndtail f htail hproc h hhash _
      · exact ih hndtail f htail hproc h hhash b

theorem scanGo_noop (cfg : SafetyConfig) :
    ∀ (files : List VaultFile) (b : List (String × String)),
      (∀ f ∈ files, shouldProcessFile cfg f = true →
        ∀ h, f.contentHash = some h → baselineGet b f.pathStr = some h) →
      scanGo cfg files b = ([], b) := by
  intro files
  induction files with
  | nil => intro b _; rfl
  | cons f fs ih =>
    intro b hb
    have hbtail : ∀ g ∈ fs, shouldProcessFile cfg g = true →
        ∀ h, g.contentHash = some h → baselineGet b g.pathStr = some h :=
      fun g hg => hb g (List.mem_cons_of_mem f hg)
    simp only [scanGo]
    by_cases hproc : shouldProcessFile cfg f = true
    · rw [if_pos hproc]
      cases hch : f.contentHash with
      | none => exact ih b hbtail
      | some h =>
        have hget : baselineGet b f.pathStr = some h :=
          hb f (List.mem_cons_self f fs) hproc h hch
        dsimp only
        rw [baselineSet_noop hget, ih b hbtail, hget]
        simp
    · rw [if_neg hproc]
      exact ih b hbtail

theorem scanGo_task_paths (cfg : SafetyConfig) :
    ∀ (files : List VaultFile) (b : List (String × String)),
      ∀ t ∈ (scanGo cfg files b).1, t.path ∈ files.map VaultFile.pathStr := by
  intro files
  induction files with
  | nil => intro b t ht; simp [scanGo] at ht
  | cons f fs ih =>
    intro b t ht
    simp only [scanGo] at ht
    simp only [List.map_cons, List.mem_cons]
    split at ht
    · split at ht
      · exact Or.inr (ih b t ht)
      · split at ht
        · rcases List.mem_cons.mp ht with heq | htail
          · exact Or.inl (by rw [heq])
          · exact Or.inr (ih _ t htail)
        · split at ht
          · rcases List.mem_cons.mp ht with heq | htail
            · exact Or.inl (by rw [heq])
            · exact Or.inr (ih _ t htail)
          · exact Or.inr (ih _ t ht)
    · exact Or.inr (ih b t ht)

theorem scanGo_count_le_one (cfg : SafetyConfig) :
    ∀ (files : List VaultFile) (b : List (String × String)),
      (files.map VaultFile.pathStr).Nodup →
      ∀ p, ((scanGo cfg files b).1.filter (fun t => t.path == p)).length ≤ 1 := by
  intro files
  induction files with
  | nil => intro b _ p; simp [scanGo]
  | cons f fs ih =>
    intro b hnd p
    have hndtail : (fs.map VaultFile.pathStr).Nodup := (List.nodup_cons.mp hnd).2
    have hnotin : f.pathStr ∉ fs.map VaultFile.pathStr := (List.nodup_cons.mp hnd).1
    simp only [scanGo]
    have hhead : ∀ (b' : List (String × String)) (tk : AnalysisTask), tk.path = f.pathStr →
        ((tk :: (scanGo cfg fs b').1).filter (fun t => t.path == p)).length ≤ 1 := by
      intro b' tk htk
      by_cases hp : tk.path == p
      · have hfp : f.pathStr = p := htk.symm.trans (eq_of_beq hp)
        have hrest : (scanGo cfg fs b').1.filter (fun t => t.path == p) = [] := by
          refine List.filter_eq_nil_iff.mpr ?_
          intro t ht
          have := scanGo_task_paths cfg fs b' t ht
          simp only [beq_iff_eq]
          intro hx
          exact hnotin (by rw [hfp, ← hx]; exact this)
        simp [List.filter_cons, hp, hrest]
      · have hpf : (tk.path == p) = false := by simpa using hp
        simp only [List.filter_cons, hpf, Bool.false_eq_true, if_false]
        exact ih b' hndtail p
    split
    · split
      · exact ih b hndtail p
      · split
        · exact hhead _ _ rfl
        · split
          · exact hhead _ _ rfl
          · exact ih _ hndtail p
    · exact ih b hndtail p

theorem scanGo_unchanged_path (cfg : SafetyConfig) (p h : String) :
    ∀ (files : List VaultFile) (b : List (String × String)),
      baselineGet b p = some h →
      (∀ g ∈ files, g.pathStr = p → g.contentHash = some h) →
      (∀ t ∈ (scanGo cfg files b).1, t.path ≠ p) ∧
      baselineGet (scanGo cfg files b).2 p = some h := by
  intro files
  induction files with
  | nil =>
    intro b hb _
    exact ⟨by intro t ht; simp [scanGo] at ht, hb⟩
  | cons g fs ih =>
    intro b hb hsame
    have hsametail : ∀ g' ∈ fs, g'.pathStr = p → g'.contentHash = some h :=
      fun g' hg' => hsame g' (List.mem_cons_of_mem g hg')
    simp only [scanGo]
    by_cases hproc : shouldProcessFile cfg g = true
    · rw [if_pos hproc]
      cases hch : g.contentHash with
      | none => exact ih b hb hsametail
      | some h' =>
        dsimp only
        by_cases hgp : g.pathStr = p
        · have hh' : h' = h := by
            have hx := hsame g (List.mem_cons_self g fs) hgp
            rw [hch] at hx
            injection hx
          rw [hgp, hb, hh']
          have hres := ih (baselineSet p h b)
            (baselineGet_set_self p h b) hsametail
          simp only [bne_self_eq_false, Bool.false_eq_true, if_false]
          exact hres
        · have hb' : baselineGet (baselineSet g.pathStr h' b) p = some h := by
            rw [baselineGet_set_other h' b (fun hx => hgp hx.symm)]
            exact hb
          have hres := ih (baselineSet g.pathStr h' b) hb' hsametail
          split
          · refine ⟨?_, hres.2⟩
            intro t ht
            rcases List.mem_cons.mp ht with heq | htail
            · rw [heq]; exact hgp
            · exact hres.1 t htail
          · split
            · refine ⟨?_, hres.2⟩
              intro t ht
              rcases List.mem_cons.mp ht with heq | htail
              · rw [heq]; exact hgp
              · exact hres.1 t htail
            · exact hres
    · rw [if_neg hproc]
      exact ih b hb hsametail

theorem scanGo_same_hash_count (cfg : SafetyConfig) (p h : String) :
    ∀ (files : List VaultFile) (b : List (String × String)),
      (∀ g ∈ files, g.pathStr = p → g.contentHash = some h) →
      ((scanGo cfg files b).1.filter (fun t => t.path == p)).length ≤ 1 ∧
      (baselineGet (scanGo cfg files b).2 p = some h ∨
        (((scanGo cfg files b).1.filter (fun t => t.path == p)).length = 0 ∧
          baselineGet (scanGo cfg files b).2 p = baselineGet b p)) := by
  intro files
  induction files with
  | nil =>
    intro b _
    exact ⟨by simp [scanGo], Or.inr ⟨by simp [scanGo], rfl⟩⟩
  | cons g fs ih =>
    intro b hsame
    have hsametail : ∀ g' ∈ fs, g'.pathStr = p → g'.contentHash = some h :=
      fun g' hg' => hsame g' (List.mem_cons_of_mem g hg')
    simp only [scanGo]
    by_cases hproc : shouldProcessFile cfg g = true
    · rw [if_pos hproc]
      cases hch : g.contentHash with
      | none => exact ih b hsametail
      | some h' =>
        dsimp only
        by_cases hgp : g.pathStr = p
        · have hh' : h' = h := by
            have hx := hsame g (List.mem_cons_self g fs) hgp
            rw [hch] at hx
            injection hx
          rw [hgp, hh']
          have hA := scanGo_unchanged_path cfg p h fs (baselineSet p h b)
            (baselineGet_set_self p h b) hsametail
          have hrest0 : (scanGo cfg fs (baselineSet p h b)).1.filter
              (fun t => t.path == p) = [] :=
            List.filter_eq_nil_iff.mpr (fun t ht => by simpa using hA.1 t ht)
          cases hbp : baselineGet b p with
          | none =>
            dsimp only
            refine ⟨?_, Or.inl hA.2⟩
            simp [List.filter_cons, hrest0]
          | some h0 =>
            dsimp only
            by_cases hmod : (h0 != h) = true
            · rw [if_pos hmod]
              refine ⟨?_, Or.inl hA.2⟩
              simp [List.filter_cons, hrest0]
            · rw [if_neg hmod]
              refine ⟨?_, Or.inl hA.2⟩
              simp [hrest0]
        · have hbase : baselineGet (baselineSet g.pathStr h' b) p = baselineGet b p :=
            baselineGet_set_other h' b (fun hx => hgp hx.symm)
          have hih := ih (baselineSet g.pathStr h' b) hsametail
          have hq : (g.pathStr == p) = false := by simpa using hgp
          split
          · refine ⟨?_, ?_⟩
            · simp only [List.filter_cons, hq, Bool.false_eq_true, if_false]
              exact hih.1
            · rcases hih.2 with hl | ⟨hc, hbu⟩
              · exact Or.inl hl
              · refine Or.inr ⟨?_, hbu.trans hbase⟩
                simp only [List.filter_cons, hq, Bool.false_eq_true, if_false]
                exact hc
          · split
            · refine ⟨?_, ?_⟩
              · simp only [List.filter_cons, hq, Bool.false_eq_true, if_false]
                exact hih.1
              · rcases hih.2 with hl | ⟨hc, hbu⟩
                · exact Or.inl hl
                · refine Or.inr ⟨?_, hbu.trans hbase⟩
                  simp only [List.filter_cons, hq, Bool.false_eq_true, if_false]
                  exact hc
            · refine ⟨hih.1, ?_⟩
              rcases hih.2 with hl | ⟨hc, hbu⟩
              · exact Or.inl hl
              · exact Or.inr ⟨hc, hbu.trans hbase⟩
    · rw [if_neg hproc]
      exact ih b hsametail

theorem scanRepeat_stable (cfg : SafetyConfig) (p h : String) :
    ∀ (trees : List (List VaultFile)) (b : List (String × String)),
      baselineGet b p = some h →
      (∀ tr ∈ trees, ∀ g ∈ rglobMd tr, g.pathStr = p → g.contentHash = some h) →
      (∀ t ∈ (scanRepeat cfg trees b).1, t.path ≠ p) ∧
      baselineGet (scanRepeat cfg trees b).2 p = some h := by
  intro trees
  induction trees with
  | nil =>
    intro b hb _
    exact ⟨by intro t ht; simp [scanRepeat] at ht, hb⟩
  | cons tr trs ih =>
    intro b hb hsame
    have h1 := scanGo_unchanged_path cfg p h (rglobMd tr) b hb
      (hsame tr (List.mem_cons_self tr trs))
    have h2 := ih (scanVaultFiles cfg b tr).2 h1.2
      (fun tr' htr' => hsame tr' (List.mem_cons_of_mem tr htr'))
    simp only [scanRepeat]
    refine ⟨?_, h2.2⟩
    intro t ht
    rcases List.mem_append.mp ht with hta | htb
    · exact h1.1 t hta
    · exact h2.1 t htb

theorem scanRepeat_same_hash_count (cfg : SafetyConfig) (p h : String) :
    ∀ (trees : List (List VaultFile)) (b : List (String × String)),
      (∀ tr ∈ trees, ∀ g ∈ rglobMd tr, g.pathStr = p → g.contentHash = some h) →
      ((scanRepeat cfg trees b).1.filter (fun t => t.path == p)).length ≤ 1 ∧
      (baselineGet (scanRepeat cfg trees b).2 p = some h ∨
        (((scanRepeat cfg trees b).1.filter (fun t => t.path == p)).length = 0 ∧
          baselineGet (scanRepeat cfg trees b).2 p = baselineGet b p)) := by
  intro trees
  induction trees with
  | nil =>
    intro b _
    exact ⟨by simp [scanRepeat], Or.inr ⟨by simp [scanRepeat], rfl⟩⟩
  | cons tr trs ih =>
    intro b hsame
    have hB := scanGo_same_hash_count cfg p h (rglobMd tr) b
      (hsame tr (List.mem_cons_self tr trs))
    have hsametail : ∀ tr' ∈ trs, ∀ g ∈ rglobMd tr', g.pathStr = p →
        g.contentHash = some h :=
      fun tr' htr' => hsame tr' (List.mem_cons_of_mem tr htr')
    simp only [scanRepeat, scanVaultFiles, List.filter_append, List.length_append]
    rcases hB.2 with hl | ⟨hc, hbu⟩
    · have hS := scanRepeat_stable cfg p h trs (scanGo cfg (rglobMd tr) b).2 hl hsametail
      have hrest0 : (scanRepeat cfg trs (scanGo cfg (rglobMd tr) b).2).1.filter
          (fun t => t.path == p) = [] :=
        List.filter_eq_nil_iff.mpr (fun t ht => by simpa using hS.1 t ht)
      rw [hrest0]
      refine ⟨by simpa using hB.1, Or.inl hS.2⟩
    · have hih := ih (scanGo cfg (rglobMd tr) b).2 hsametail
      rw [hc]
      refine ⟨by simpa using hih.1, ?_⟩
      rcases hih.2 with hl2 | ⟨hc2, hbu2⟩
      · exact Or.inl hl2
      · exact Or.inr ⟨by simp [hc, hc2], hbu2.trans hbu⟩

/-- Claim C5: for a document whose bytes never change across any number of
scans — the rest of the tree free to differ from scan to scan — the scans
together enqueue at most one task for its path: the baseline fingerprint
for the path is updated at scan time (independent of any later task
outcome), so an unmodified fingerprint never causes a duplicate enqueue
on a subsequent scan. -/
theorem c5_unchanged_doc_single_enqueue (cfg : SafetyConfig)
    (b : List (String × String)) (trees : List (List VaultFile)) (p h : String)
    (hsame : ∀ tr ∈ trees, ∀ g ∈ rglobMd tr, g.pathStr = p → g.contentHash = some h) :
    ((scanRepeat cfg trees b).1.filter (fun t => t.path == p)).length ≤ 1 :=
  (scanRepeat_same_hash_count cfg p h trees b hsame).1

def freshFile : VaultFile :=
  ⟨"/v/note.md", ".md", 10, some "h1"⟩

def siblingFile : VaultFile :=
  ⟨"/v/other.md", ".md", 10, some "h2"⟩

theorem c5_unchanged_doc_single_enqueue_witness :
    ((scanRepeat defaultSafety [[freshFile], [freshFile, siblingFile],
        [freshFile, siblingFile]] []).1.filter
      (fun t => t.path == "/v/note.md")).length ≤ 1 :=
  c5_unchanged_doc_single_enqueue defaultSafety []
    [[freshFile], [freshFile, siblingFile], [freshFile, siblingFile]]
    "/v/note.md" "h1" (by decide)

theorem entryKeyLe_refl (a : QueueEntry) : entryKeyLe a a :=
  Or.inr ⟨rfl, le_refl _⟩

theorem entryKeyLe_total (a b : QueueEntry) : entryKeyLe a b ∨ entryKeyLe b a := by
  rcases Nat.lt_trichotomy a.priority b.priority with h | h | h
  · exact Or.inl (Or.inl h)
  · rcases le_total a.negQueuedAt b.negQueuedAt with hq | hq
    · exact Or.inl (Or.inr ⟨h, hq⟩)
    · exact Or.inr (Or.inr ⟨h.symm, hq⟩)
  · exact Or.inr (Or.inl h)

theorem entryKeyLe_trans {a b c : QueueEntry} (h1 : entryKeyLe a b)
    (h2 : entryKeyLe b c) : entryKeyLe a c := by
  rcases h1 with h1 | ⟨e1, q1⟩ <;> rcases h2 with h2 | ⟨e2, q2⟩
  · exact Or.inl (h1.trans h2)
  · exact Or.inl (e2 ▸ h1)
  · exact Or.inl (e1 ▸ h2)
  · exact Or.inr ⟨e1.trans e2, q1.trans q2⟩

theorem popMinEntry_perm (m : QueueEntry) (l : List QueueEntry) :
    List.Perm ((popMinEntry m l).1 :: (popMinEntry m l).2) (m :: l) := by
  induction l generalizing m with
  | nil => simp [popMinEntry]
  | cons e es ih =>
    unfold popMinEntry
    by_cases hle : entryKeyLe m e
    · rw [if_pos hle]
      dsimp only
      exact ((List.Perm.swap e _ _).trans ((ih m).cons e)).trans (List.Perm.swap m e es)
    · rw [if_neg hle]
      dsimp only
      exact (List.Perm.swap m _ _).trans ((ih e).cons m)

theorem popMinEntry_le (l : List QueueEntry) :
    ∀ (m : QueueEntry), ∀ x ∈ m :: l, entryKeyLe (popMinEntry m l).1 x := by
  induction l with
  | nil =>
    intro m x hx
    rw [List.mem_singleton.mp hx]
    exact entryKeyLe_refl m
  | cons e es ih =>
    intro m x hx
    unfold popMinEntry
    by_cases hle : entryKeyLe m e
    · rw [if_pos hle]
      dsimp only
      rcases List.mem_cons.mp hx with heq | hx'
      · rw [heq]
        exact ih m m (List.mem_cons_self _ _)
      · rcases List.mem_cons.mp hx' with heq | hx''
        · rw [heq]
          exact entryKeyLe_trans (ih m m (List.mem_cons_self _ _)) hle
        · exact ih m x (List.mem_cons_of_mem _ hx'')
    · rw [if_neg hle]
      dsimp only
      have hem : entryKeyLe e m := (entryKeyLe_total m e).resolve_left hle
      rcases List.mem_cons.mp hx with heq | hx'
      · rw [heq]
        exact entryKeyLe_trans (ih e e (List.mem_cons_self _ _)) hem
      · exact ih e x hx'

theorem drainFuel_perm : ∀ (n : Nat) (l : List QueueEntry), l.length ≤ n →
    List.Perm (drainFuel n l) l := by
  intro n
  induction n with
  | zero =>
    intro l hl
    rw [List.length_eq_zero.mp (Nat.le_zero.mp hl)]
    rfl
  | succ n ih =>
    intro l hl
    cases l with
    | nil => rfl
    | cons e es =>
      unfold drainFuel
      dsimp only
      have hperm := popMinEntry_perm e es
      have hlen : (popMinEntry e es).2.length ≤ n := by
        have hlc := hperm.length_eq
        simp only [List.length_cons] at hlc hl
        omega
      exact ((ih _ hlen).cons _).trans hperm

theorem drainFuel_sorted : ∀ (n : Nat) (l : List QueueEntry), l.length ≤ n →
    (drainFuel n l).Pairwise entryKeyLe := by
  intro n
  induction n with
  | zero => intro l _; exact List.Pairwise.nil
  | succ n ih =>
    intro l hl
    cases l with
    | nil => exact List.Pairwise.nil
    | cons e es =>
      unfold drainFuel
      dsimp only
      have hperm := popMinEntry_perm e es
      have hlen : (popMinEntry e es).2.length ≤ n := by
        have hlc := hperm.length_eq
        simp only [List.length_cons] at hlc hl
        omega
      refine List.Pairwise.cons ?_ (ih _ hlen)
      intro y hy
      have hy2 : y ∈ (popMinEntry e es).2 := (drainFuel_perm n _ hlen).subset hy
      have hy3 : y ∈ e :: es := hperm.subset (List.mem_cons_of_mem _ hy2)
      exact popMinEntry_le es e y hy3

/-- Claim C3: draining the task queue returns entries sorted by
(priority ascending, enqueue time descending) — a permutation of what was
enqueued — and in particular tasks enqueued at priorities 1, 2, 1 at times
t1 < t2 < t3 come out as task3 (priority 1), task1 (priority 1),
task2 (priority 2). -/
theorem c3_queue_order (q : List QueueEntry) (t1 t2 t3 : ℚ) :
    (drainQueue q).Pairwise entryKeyLe ∧ List.Perm (drainQueue q) q ∧
    (t1 < t2 → t2 < t3 →
      drainQueue (enqueueTask (enqueueTask (enqueueTask [] "task1" 1 t1)
          "task2" 2 t2) "task3" 1 t3) =
        [⟨1, -t3, "task3"⟩, ⟨1, -t1, "task1"⟩, ⟨2, -t2, "task2"⟩]) := by
  refine ⟨drainFuel_sorted _ _ le_rfl, drainFuel_perm _ _ le_rfl, ?_⟩
  intro h12 h23
  have k12 : entryKeyLe ⟨1, -t1, "task1"⟩ ⟨2, -t2, "task2"⟩ := Or.inl (by norm_num)
  have k13 : ¬ entryKeyLe ⟨1, -t1, "task1"⟩ ⟨1, -t3, "task3"⟩ := by
    rintro (h | ⟨-, h⟩)
    · exact absurd h (lt_irrefl 1)
    · simp only at h
      have : t3 ≤ t1 := by linarith [neg_le_neg_iff.mp h]
      linarith
  have k21 : ¬ entryKeyLe ⟨2, -t2, "task2"⟩ ⟨1, -t1, "task1"⟩ := by
    rintro (h | ⟨h, -⟩) <;> simp only at h <;> omega
  simp [enqueueTask, drainQueue, drainFuel, popMinEntry, k12, k13, k21]

theorem c3_queue_order_witness :
    drainQueue (enqueueTask (enqueueTask (enqueueTask [] "task1" 1 1)
        "task2" 2 2) "task3" 1 3) =
      [⟨1, -3, "task3"⟩, ⟨1, -1, "task1"⟩, ⟨2, -2, "task2"⟩] :=
  (c3_queue_order [] 1 2 3).2.2 (by norm_num) (by norm_num)

theorem replaceAllF_congr (pat rep : List Char) :
    ∀ (n : Nat), ∀ {m : Nat} {s : List Char}, s.length ≤ n → s.length ≤ m →
      replaceAllF pat rep n s = replaceAllF pat rep m s := by
  intro n
  induction n with
  | zero =>
    intro m s hn _
    rw [List.length_eq_zero.mp (Nat.le_zero.mp hn)]
    cases m <;> rfl
  | succ n ih =>
    intro m s hn hm
    cases s with
    | nil => cases m <;> rfl
    | cons c cs =>
      cases m with
      | zero => simp at hm
      | succ m' =>
        simp only [replaceAllF]
        by_cases hp : pat.isPrefixOf (c :: cs) = true
        · rw [if_pos hp, if_pos hp]
          have hd : (cs.drop (pat.length - 1)).length ≤ n := by
            simp only [List.length_drop]
            simp only [List.length_cons] at hn
            omega
          have hd2 : (cs.drop (pat.length - 1)).length ≤ m' := by
            simp only [List.length_drop]
            simp only [List.length_cons] at hm
            omega
          rw [ih hd hd2]
        · rw [if_neg hp, if_neg hp]
          have h1 : cs.length ≤ n := by simp only [List.length_cons] at hn; omega
          have h2 : cs.length ≤ m' := by simp only [List.length_cons] at hm; omega
          rw [ih h1 h2]

theorem replaceAll_cons (pat rep : List Char) (c : Char) (s : List Char) :
    replaceAll pat rep (c :: s) =
      if pat.isPrefixOf (c :: s) then rep ++ replaceAll pat rep (s.drop (pat.length - 1))
      else c :: replaceAll pat rep s := by
  unfold replaceAll
  rw [show (c :: s).length = s.length + 1 from rfl]
  simp only [replaceAllF]
  by_cases hp : pat.isPrefixOf (c :: s) = true
  · rw [if_pos hp, if_pos hp]
    congr 1
    exact replaceAllF_congr pat rep s.length (by simp) le_rfl
  · rw [if_neg hp, if_neg hp]

theorem countOccF_congr (pat : List Char) :
    ∀ (n : Nat), ∀ {m : Nat} {s : List Char}, s.length ≤ n → s.length ≤ m →
      countOccF pat n s = countOccF pat m s := by
  intro n
  induction n with
  | zero =>
    intro m s hn _
    rw [List.length_eq_zero.mp (Nat.le_zero.mp hn)]
    cases m <;> rfl
  | succ n ih =>
    intro m s hn hm
    cases s with
    | nil => cases m <;> rfl
    | cons c cs =>
      cases m with
      | zero => simp at hm
      | succ m' =>
        simp only [countOccF]
        by_cases hp : pat.isPrefixOf (c :: cs) = true
        · rw [if_pos hp, if_pos hp]
          have hd : (cs.drop (pat.length - 1)).length ≤ n := by
            simp only [List.length_drop]
            simp only [List.length_cons] at hn
            omega
          have hd2 : (cs.drop (pat.length - 1)).length ≤ m' := by
            simp only [List.length_drop]
            simp only [List.length_cons] at hm
            omega
          rw [ih hd hd2]
        · rw [if_neg hp, if_neg hp]
          have h1 : cs.length ≤ n := by simp only [List.length_cons] at hn; omega
          have h2 : cs.length ≤ m' := by simp only [List.length_cons] at hm; omega
          rw [ih h1 h2]

theorem countOcc_cons (pat : List Char) (c : Char) (s : List Char) :
    countOcc pat (c :: s) =
      if pat.isPrefixOf (c :: s) then 1 + countOcc pat (s.drop (pat.length - 1))
      else countOcc pat s := by
  unfold countOcc
  rw [show (c :: s).length = s.length + 1 from rfl]
  simp only [countOccF]
  by_cases hp : pat.isPrefixOf (c :: s) = true
  · rw [if_pos hp, if_pos hp]
    congr 1
    exact countOccF_congr pat s.length (by simp) le_rfl
  · rw [if_neg hp, if_neg hp]

theorem replaceAll_of_none {pat rep : List Char} :
    ∀ {s : List Char}, splitFirst pat s = none → replaceAll pat rep s = s := by
  intro s
  induction s with
  | nil => intro _; rfl
  | cons c cs ih =>
    intro h
    unfold splitFirst at h
    rw [replaceAll_cons]
    by_cases hp : pat.isPrefixOf (c :: cs) = true
    · rw [if_pos hp] at h; exact absurd h (by simp)
    · rw [if_neg hp] at h
      rw [if_neg hp]
      have hnone : splitFirst pat cs = none := by
        cases hsf : splitFirst pat cs with
        | none => rfl
        | some pq => rw [hsf] at h; simp at h
      rw [ih hnone]

theorem replaceAll_of_some {pat rep : List Char} :
    ∀ {s pre suf : List Char}, splitFirst pat s = some (pre, suf) →
      replaceAll pat rep s = pre ++ rep ++ replaceAll pat rep suf := by
  intro s
  induction s with
  | nil => intro pre suf h; simp [splitFirst] at h
  | cons c cs ih =>
    intro pre suf h
    unfold splitFirst at h
    rw [replaceAll_cons]
    by_cases hp : pat.isPrefixOf (c :: cs) = true
    · rw [if_pos hp] at h
      rw [if_pos hp]
      simp only [Option.some.injEq, Prod.mk.injEq] at h
      rw [← h.1, ← h.2]
      simp
    · rw [if_neg hp] at h
      rw [if_neg hp]
      cases hsf : splitFirst pat cs with
      | none => rw [hsf] at h; simp at h
      | some pq =>
        rw [hsf] at h
        simp only [Option.map_some', Option.some.injEq] at h
        cases h
        rw [ih (by rw [hsf])]
        simp

theorem countOcc_of_none {pat : List Char} :
    ∀ {s : List Char}, splitFirst pat s = none → countOcc pat s = 0 := by
  intro s
  induction s with
  | nil => intro _; rfl
  | cons c cs ih =>
    intro h
    unfold splitFirst at h
    rw [countOcc_cons]
    by_cases hp : pat.isPrefixOf (c :: cs) = true
    · rw [if_pos hp] at h; exact absurd h (by simp)
    · rw [if_neg hp] at h
      rw [if_neg hp]
      have hnone : splitFirst pat cs = none := by
        cases hsf : splitFirst pat cs with
        | none => rfl
        | some pq => rw [hsf] at h; simp at h
      exact ih hnone

theorem countOcc_of_some {pat : List Char} :
    ∀ {s pre suf : List Char}, splitFirst pat s = some (pre, suf) →
      countOcc pat s = 1 + countOcc pat suf := by
  intro s
  induction s with
  | nil => intro pre suf h; simp [splitFirst] at h
  | cons c cs ih =>
    intro pre suf h
    unfold splitFirst at h
    rw [countOcc_cons]
    by_cases hp : pat.isPrefixOf (c :: cs) = true
    · rw [if_pos hp] at h
      rw [if_pos hp]
      simp only [Option.some.injEq, Prod.mk.injEq] at h
      rw [h.2]
    · rw [if_neg hp] at h
      rw [if_neg hp]
      cases hsf : splitFirst pat cs with
      | none => rw [hsf] at h; simp at h
      | some pq =>
        rw [hsf] at h
        simp only [Option.map_some', Option.some.injEq] at h
        cases h
        exact ih (by rw [hsf])

theorem splitFirst_none_of_countOcc_zero {pat s : List Char}
    (h : countOcc pat s = 0) : splitFirst pat s = none := by
  cases hsf : splitFirst pat s with
  | none => rfl
  | some pq =>
    rw [countOcc_of_some (by rw [hsf])] at h
    omega

theorem splitFirst_decomp {pat : List Char} (hpat : pat ≠ []) :
    ∀ {s pre suf : List Char}, splitFirst pat s = some (pre, suf) →
      s = pre ++ pat ++ suf := by
  intro s
  induction s with
  | nil => intro pre suf h; simp [splitFirst] at h
  | cons c cs ih =>
    intro pre suf h
    unfold splitFirst at h
    by_cases hp : pat.isPrefixOf (c :: cs) = true
    · rw [if_pos hp] at h
      simp only [Option.some.injEq, Prod.mk.injEq] at h
      obtain ⟨hpre, hsuf⟩ := h
      have hpref : pat <+: (c :: cs) := List.isPrefixOf_iff_prefix.mp hp
      obtain ⟨t, ht⟩ := hpref
      have hlen : t = (c :: cs).drop pat.length := by
        rw [← ht, List.drop_left]
      have hdrop : (c :: cs).drop pat.length = cs.drop (pat.length - 1) := by
        cases hpl : pat.length with
        | zero => exact absurd (List.length_eq_zero.mp hpl) hpat
        | succ k => simp
      rw [← hpre, ← hsuf, List.nil_append, ← hdrop, ← hlen, ht]
    · rw [if_neg hp] at h
      cases hsf : splitFirst pat cs with
      | none => rw [hsf] at h; simp at h
      | some pq =>
        rw [hsf] at h
        simp only [Option.map_some', Option.some.injEq] at h
        cases h
        rw [show c :: cs = c :: (pq.1 ++ pat ++ pq.2) by rw [← ih (by rw [hsf])]]
        rfl

theorem isPrefixOf_append_indep :
    ∀ (pat heads Y Z : List Char), pat.length ≤ heads.length →
      pat.isPrefixOf (heads ++ Y) = pat.isPrefixOf (heads ++ Z) := by
  intro pat
  induction pat with
  | nil => intro heads Y Z _; simp [List.isPrefixOf]
  | cons p ps ih =>
    intro heads Y Z hlen
    cases heads with
    | nil => simp at hlen
    | cons hh ht =>
      simp only [List.cons_append, List.isPrefixOf, List.append_eq]
      rw [ih ht Y Z (by simpa using hlen)]

theorem isPrefixOf_self_append :
    ∀ (l t : List Char), l.isPrefixOf (l ++ t) = true := by
  intro l
  induction l with
  | nil => intro t; simp [List.isPrefixOf]
  | cons c cs ih =>
    intro t
    simp only [List.cons_append, List.isPrefixOf, List.append_eq, beq_self_eq_true,
      Bool.true_and]
    exact ih t

theorem splitFirst_append_indep {pat : List Char} (hpat : pat ≠ []) :
    ∀ (pre suf X : List Char),
      splitFirst pat (pre ++ pat ++ suf) = some (pre, suf) →
      splitFirst pat (pre ++ pat ++ X) = some (pre, X) := by
  intro pre
  induction pre with
  | nil =>
    intro suf X _
    simp only [List.nil_append]
    cases hpl : pat with
    | nil => exact absurd hpl hpat
    | cons q qs =>
      rw [List.cons_append]
      simp only [splitFirst]
      rw [if_pos (by rw [← List.cons_append]; exact isPrefixOf_self_append (q :: qs) X)]
      simp only [Option.some.injEq, Prod.mk.injEq, true_and]
      rw [show (q :: qs).length - 1 = qs.length from by simp]
      exact List.drop_left qs X
  | cons a pre' ih =>
    intro suf X h
    have hassocS : (a :: pre') ++ pat ++ suf = a :: (pre' ++ pat ++ suf) := by simp
    have hassocX : (a :: pre') ++ pat ++ X = a :: (pre' ++ pat ++ X) := by simp
    rw [hassocS] at h
    rw [hassocX]
    simp only [splitFirst] at h ⊢
    by_cases hp : pat.isPrefixOf (a :: (pre' ++ pat ++ suf)) = true
    · rw [if_pos hp] at h
      simp only [Option.some.injEq, Prod.mk.injEq] at h
      exact absurd h.1.symm (by simp)
    · rw [if_neg hp] at h
      have hlen : pat.length ≤ ((a :: pre') ++ pat).length := by
        simp only [List.length_append, List.length_cons]
        omega
      have hagree := isPrefixOf_append_indep pat ((a :: pre') ++ pat) suf X hlen
      have hform : ∀ W : List Char, ((a :: pre') ++ pat) ++ W = a :: (pre' ++ pat ++ W) := by
        intro W
        simp
      rw [hform suf, hform X] at hagree
      have hpX : ¬ pat.isPrefixOf (a :: (pre' ++ pat ++ X)) = true := by
        rw [← hagree]
        exact hp
      rw [if_neg hpX]
      cases hsf : splitFirst pat (pre' ++ pat ++ suf) with
      | none => rw [hsf] at h; simp at h
      | some pq =>
        rw [hsf] at h
        simp only [Option.map_some', Option.some.injEq, Prod.mk.injEq,
          List.cons.injEq, true_and] at h
        have hresc : splitFirst pat (pre' ++ pat ++ suf) = some (pre', suf) := by
          rw [hsf, ← h.1, ← h.2]
        rw [ih suf X hresc]
        simp

/-- Claim C8 counterexample: on a document containing the
"## Related Notes" header twice, `apply` inserts the link line twice —
`str.replace` replaces every occurrence — refuting "inserts exactly one
new link line". -/
theorem c8_counterexample :
    countOcc relNotesChars "## Related Notes\nA\n## Related Notes\nB".data = 2 ∧
    countOcc "- [[T]]".data "## Related Notes\nA\n## Related Notes\nB".data = 0 ∧
    countOcc "- [[T]]".data
      (applyContent "## Related Notes\nA\n## Related Notes\nB".data "- [[T]]".data) = 2 := by
  refine ⟨?_, ?_, ?_⟩ <;> decide

/-- Claim C8 (amended): when the source contains "## Related Notes"
exactly once (and the inserted line does not itself recreate the header at
a junction), `apply` inserts exactly one link line directly under that
header and the header count stays one; when "## Related Notes" is absent
and "## See Also" occurs exactly once (same proviso), it inserts exactly
one link line directly under the See-Also header, which likewise stays
unique.  When neither header substring occurs, a fresh "## Related Notes"
section is appended at end-of-file. -/
theorem c8_apply_insertion (content link pre suf : List Char) :
    (splitFirst relNotesChars content = some (pre, suf) →
      countOcc relNotesChars suf = 0 →
      countOcc relNotesChars ('\n' :: (link ++ suf)) = 0 →
      applyContent content link = pre ++ relNotesChars ++ '\n' :: (link ++ suf) ∧
        countOcc relNotesChars (applyContent content link) = 1) ∧
    (occursB relNotesChars content = false →
      splitFirst seeAlsoChars content = some (pre, suf) →
      countOcc seeAlsoChars suf = 0 →
      countOcc seeAlsoChars ('\n' :: (link ++ suf)) = 0 →
      applyContent content link = pre ++ seeAlsoChars ++ '\n' :: (link ++ suf) ∧
        countOcc seeAlsoChars (applyContent content link) = 1) ∧
    (occursB relNotesChars content = false → occursB seeAlsoChars content = false →
      applyContent content link =
        rstrip content ++ "\n\n## Related Notes\n\n".data ++ link ++ ['\n']) := by
  refine ⟨?_, ?_, ?_⟩
  · intro hsplit hsuf hclean
    have hpat : relNotesChars ≠ [] := by decide
    have hocc : occursB relNotesChars content = true := by
      unfold occursB
      rw [hsplit]
      rfl
    have heq : applyContent content link = pre ++ relNotesChars ++ '\n' :: (link ++ suf) := by
      unfold applyContent
      rw [if_pos hocc]
      rw [replaceAll_of_some hsplit,
        replaceAll_of_none (splitFirst_none_of_countOcc_zero hsuf)]
      simp
    refine ⟨heq, ?_⟩
    rw [heq]
    have hdecomp : content = pre ++ relNotesChars ++ suf := splitFirst_decomp hpat hsplit
    rw [hdecomp] at hsplit
    have hindep := splitFirst_append_indep hpat pre suf ('\n' :: (link ++ suf)) hsplit
    rw [show pre ++ relNotesChars ++ '\n' :: (link ++ suf) =
      pre ++ relNotesChars ++ ('\n' :: (link ++ suf)) from rfl]
    rw [countOcc_of_some hindep, hclean]
  · intro hnorel hsplit hsuf hclean
    have hpat : seeAlsoChars ≠ [] := by decide
    have hocc : occursB seeAlsoChars content = true := by
      unfold occursB
      rw [hsplit]
      rfl
    have heq : applyContent content link = pre ++ seeAlsoChars ++ '\n' :: (link ++ suf) := by
      unfold applyContent
      rw [if_neg (by rw [hnorel]; simp), if_pos hocc]
      rw [replaceAll_of_some hsplit,
        replaceAll_of_none (splitFirst_none_of_countOcc_zero hsuf)]
      simp
    refine ⟨heq, ?_⟩
    rw [heq]
    have hdecomp : content = pre ++ seeAlsoChars ++ suf := splitFirst_decomp hpat hsplit
    rw [hdecomp] at hsplit
    have hindep := splitFirst_append_indep hpat pre suf ('\n' :: (link ++ suf)) hsplit
    rw [show pre ++ seeAlsoChars ++ '\n' :: (link ++ suf) =
      pre ++ seeAlsoChars ++ ('\n' :: (link ++ suf)) from rfl]
    rw [countOcc_of_some hindep, hclean]
  · intro h1 h2
    unfold applyContent
    rw [if_neg (by rw [h1]; simp), if_neg (by rw [h2]; simp)]

theorem c8_apply_insertion_witness :
    (applyContent "# T\n\n## Related Notes\n- [[old]]\n".data "- [[new]]".data =
      "# T\n\n".data ++ relNotesChars ++ '\n' :: ("- [[new]]".data ++ "\n- [[old]]\n".data) ∧
      countOcc relNotesChars
        (applyContent "# T\n\n## Related Notes\n- [[old]]\n".data "- [[new]]".data) = 1) ∧
    (applyContent "# T\n\n## See Also\n- [[x]]\n".data "- [[new]]".data =
      "# T\n\n".data ++ seeAlsoChars ++ '\n' :: ("- [[new]]".data ++ "\n- [[x]]\n".data) ∧
      countOcc seeAlsoChars
        (applyContent "# T\n\n## See Also\n- [[x]]\n".data "- [[new]]".data) = 1) ∧
    applyContent "# T\nbody\n".data "- [[new]]".data =
      rstrip "# T\nbody\n".data ++ "\n\n## Related Notes\n\n".data ++
        "- [[new]]".data ++ ['\n'] := by
  refine ⟨?_, ?_, ?_⟩
  · exact (c8_apply_insertion "# T\n\n## Related Notes\n- [[old]]\n".data
      "- [[new]]".data "# T\n\n".data "\n- [[old]]\n".data).1
      (by decide) (by decide) (by decide)
  · exact (c8_apply_insertion "# T\n\n## See Also\n- [[x]]\n".data
      "- [[new]]".data "# T\n\n".data "\n- [[x]]\n".data).2.1
      (by decide) (by decide) (by decide) (by decide)
  · exact (c8_apply_insertion "# T\nbody\n".data "- [[new]]".data [] []).2.2
      (by decide) (by decide)

theorem firstSome_eq_none_iff :
    ∀ (l : List (Option Json)), firstSome l = none ↔ ∀ o ∈ l, o = none := by
  intro l
  induction l with
  | nil => simp [firstSome]
  | cons o t ih =>
    cases o with
    | none => simp [firstSome, ih]
    | some j => simp [firstSome]

/-- Claim C7 counterexample: the response `\x7bx \x7b"a": 1\x7d y\x7d`
contains the parseable balanced brace-delimited object `\x7b"a": 1\x7d`,
yet extraction returns `None`: the regex's single greedy candidate is the
whole unparseable span, and `findall` never offers the inner object. -/
theorem c7_counterexample :
    (extractJsonFromResponse (some "\x7bx \x7b\"a\": 1\x7d y\x7d")).isNone = true ∧
    balancedDelimited "\x7b\"a\": 1\x7d" = true ∧
    (jsonLoads "\x7b\"a\": 1\x7d").isSome = true ∧
    occursB "\x7b\"a\": 1\x7d".data "\x7bx \x7b\"a\": 1\x7d y\x7d".data = true :=
  ⟨rfl, rfl, rfl, rfl⟩

/-- Claim C7 (amended): extraction first tries the full response; on
failure it tries, in order, exactly the non-overlapping regex candidates
(brace spans of nesting depth at most one), returning the first that
parses.  `None` is returned iff the response is empty, or the full parse
fails and no regex candidate parses — a parseable balanced object inside a
failed larger candidate is not recovered. -/
theorem c7_extract_json (s : String) (j : Json) :
    (s ≠ "" → jsonLoads s = some j → extractJsonFromResponse (some s) = some j) ∧
    (extractJsonFromResponse (some s) = none ↔
      s = "" ∨ (jsonLoads s = none ∧ ∀ m ∈ findallMatches s, jsonLoads m = none)) := by
  constructor
  · intro hne hj
    unfold extractJsonFromResponse
    dsimp only
    rw [if_neg (by simpa using hne), hj]
  · unfold extractJsonFromResponse
    dsimp only
    by_cases hse : s = ""
    · rw [if_pos (by simpa using hse)]
      simp [hse]
    · rw [if_neg (by simpa using hse)]
      cases hjl : jsonLoads s with
      | some j' => simp [hse]
      | none =>
        constructor
        · intro hfs
          refine Or.inr ⟨rfl, ?_⟩
          intro m hm
          have := (firstSome_eq_none_iff _).mp hfs (jsonLoads m)
            (List.mem_map_of_mem jsonLoads hm)
          exact this
        · rintro (h | ⟨-, hall⟩)
          · exact absurd h hse
          · refine (firstSome_eq_none_iff _).mpr ?_
            intro o ho
            rcases List.mem_map.mp ho with ⟨m, hm, rfl⟩
            exact hall m hm

theorem c7_extract_json_witness :
    (extractJsonFromResponse (some "\x7b\"ok\": true\x7d")).isSome = true := by
  have hs : (jsonLoads "\x7b\"ok\": true\x7d").isSome = true := rfl
  have hj : jsonLoads "\x7b\"ok\": true\x7d" =
      some ((jsonLoads "\x7b\"ok\": true\x7d").get hs) := (Option.some_get hs).symm
  rw [(c7_extract_json "\x7b\"ok\": true\x7d" _).1 (by decide) hj]
  rfl

def c1Connection : Connection :=
  ⟨"/v/src.md", "/v/target.md", .str "thematic", .num 8, .num (mkRat 9 10),
    .str "shared theme", none, false, 0⟩

/-- Claim C1 is violated by the code: after a successful
`_apply_connection` only the in-memory dataclass is marked applied — the
row inserted by `save_connection` before the apply is never updated (and
`applied_at` is never written), so a later `get_pending_connections` call
(source defaults `min_score=6`, `min_confidence=0.7`) still returns the
applied connection.  Evaluated here on a concrete pipeline step: the apply
succeeds, the returned in-memory connection is marked applied, yet the
stored row stays unapplied and is listed as pending. -/
theorem c1_applied_connection_still_pending :
    (applyConnection (some "# Source\n".data) true c1Connection ⟨0, 0⟩).1 = true ∧
    (handleFoundConnection defaultAutoApply [] ⟨0, 0⟩ 0 (some "# Source\n".data)
      true c1Connection).2.2.2.auto_applied = true ∧
    (handleFoundConnection defaultAutoApply [] ⟨0, 0⟩ 0 (some "# Source\n".data)
      true c1Connection).1 = [c1Connection] ∧
    c1Connection.auto_applied = false ∧
    getPendingConnections (handleFoundConnection defaultAutoApply [] ⟨0, 0⟩ 0
      (some "# Source\n".data) true c1Connection).1 6 (mkRat 7 10) = [c1Connection] :=
  ⟨rfl, rfl, rfl, rfl, rfl⟩

end VaultAnalyzer
